import Mathlib

attribute [local semireducible] Rat.add Rat.sub Rat.mul Rat.inv

/-!
# Verification of the `intensity-segments` segment store

Shallow embedding of `src/IntensitySegments.ts`.  The store is a list of
`(point, intensity)` pairs; JavaScript numbers are modelled by `ℚ` for the
finite values (all arithmetic performed by the library on values that pass
validation is exact on the integer-valued inputs exercised here) together
with a wrapper type `JsNum` that also has the non-finite values `Infinity`,
`-Infinity` and `NaN` so that the validation layer can be stated.
-/

namespace IntensitySegments

/-- A segment `[point, intensity]`, as stored in `this.segments`. -/
abbrev Seg : Type := ℚ × ℚ

/-- Net change accumulated at point `p` by a list of `(point, delta)`
contributions; models the summing writes into the JS `Map` `changes`
(`changes.set(point, (changes.get(point) || 0) + intensities[i])`). -/
def sumAt (D : List Seg) (p : ℚ) : ℚ :=
  ((D.filter fun d => decide (d.1 = p)).map Prod.snd).sum

/-- `Array.from(changes.keys()).sort((a, b) => a - b)`: the distinct points
of the change map, in ascending numeric order. -/
def changeKeys (D : List Seg) : List ℚ :=
  ((D.map Prod.fst).dedup).insertionSort (· ≤ ·)

/-- The cumulative-sum loop of `applyChanges`: walks the sorted points and
emits `[point, currentIntensity]` where `currentIntensity` accumulates the
per-point changes. -/
def accumSegs (D : List Seg) : List ℚ → ℚ → List Seg
  | [], _ => []
  | p :: ps, acc => (p, acc + sumAt D p) :: accumSegs D ps (acc + sumAt D p)

/-- The "remove unnecessary zeros" loop of `applyChanges`, with its
`foundNonZero` flag.  `nextIntensity` is the following segment's value (0 at
the end), exactly as in the source. -/
def filterSegs : List Seg → Bool → List Seg
  | [], _ => []
  | (p, v) :: rest, found =>
    let nextIntensity : ℚ := match rest with | [] => 0 | (_, w) :: _ => w
    if found = false ∧ v = 0 then filterSegs rest found
    else
      let found2 := found || decide (v ≠ 0)
      if v ≠ 0 ∨ nextIntensity ≠ 0 ∨ found2 = true then (p, v) :: filterSegs rest found2
      else filterSegs rest found2

/-- The trailing-zero `while` loop of `applyChanges`, acting on the reversed
list: pop the last segment while the final two segments both have value 0
(`finalSegments[len-2]?.[1] === 0` is false for a one-element list). -/
def trimRev : List Seg → List Seg
  | (p1, v1) :: (p2, v2) :: rest =>
    if v1 = 0 ∧ v2 = 0 then trimRev ((p2, v2) :: rest)
    else (p1, v1) :: (p2, v2) :: rest
  | l => l

/-- `applyChanges(changes)`: sort the points, accumulate intensities, drop
leading zeros, trim the trailing zero run. -/
def applyChanges (D : List Seg) : List Seg :=
  (trimRev ((filterSegs (accumSegs D (changeKeys D) 0) false).reverse)).reverse

/-- The re-derivation loop shared by `add` (and the first part of `set`'s
clean-up): every segment contributes `+intensity` at its start and, unless it
is the last segment, `-intensity` at the next segment's start. -/
def deriveDeltas : List Seg → List Seg
  | [] => []
  | [(p, v)] => [(p, v)]
  | (p, v) :: (q, w) :: rest => (p, v) :: (q, -v) :: deriveDeltas ((q, w) :: rest)

/-- `add(from, to, amount)` after validation: re-derive the store's deltas,
append `+amount` at `from` and `-amount` at `to`, and normalize. -/
def add (S : List Seg) (a b x : ℚ) : List Seg :=
  applyChanges (deriveDeltas S ++ [(a, x), (b, -x)])

/-- The backwards scan of `set` that finds the intensity continuing after
`to`: the last stored segment whose point is `≤ to`, default 0. -/
def carryAfter (S : List Seg) (b : ℚ) : ℚ :=
  ((S.reverse.find? fun s => decide (s.1 ≤ b)).map Prod.snd).getD 0

/-- The working sequence `newSegments` assembled by `set`: segments strictly
before `from` (the loop breaks at the first point `≥ from`), then
`[from, amount]`, then `[to, carryAfter]`, then segments strictly after
`to`. -/
def assembleSet (S : List Seg) (a b x : ℚ) : List Seg :=
  (S.takeWhile fun s => decide (s.1 < a)) ++ [(a, x), (b, carryAfter S b)]
    ++ (S.filter fun s => decide (b < s.1))

/-- `Math.max(...newSegments.map(([p]) => p))`; the list is never empty in
`set`. -/
def maxPoint : List ℚ → ℚ
  | [] => 0
  | p :: ps => ps.foldl max p

/-- The delta-derivation loop of `set`: as `deriveDeltas`, except that a
final segment with non-zero intensity additionally emits `-intensity` at
`maxPoint + 1`.  (In the source that final write is `changes.set(...)`
without summing; `maxPoint + 1` exceeds every key already present, so the
overwrite and the sum agree.) -/
def deriveSetDeltas (mp : ℚ) : List Seg → List Seg
  | [] => []
  | [(p, v)] => if v ≠ 0 then [(p, v), (mp + 1, -v)] else [(p, v)]
  | (p, v) :: (q, w) :: rest => (p, v) :: (q, -v) :: deriveSetDeltas mp ((q, w) :: rest)

/-- `set(from, to, amount)` after validation. -/
def set (S : List Seg) (a b x : ℚ) : List Seg :=
  applyChanges
    (deriveSetDeltas (maxPoint ((assembleSet S a b x).map Prod.fst)) (assembleSet S a b x))

/-- The binary-search loop of `getIntensityAt`.  `left`/`right` are the JS
index variables (`right` may become `-1`); `mid = Math.floor((left+right)/2)`.
Out-of-range reads cannot occur on the index ranges actually used. -/
def bsearchGo (S : List Seg) (t : ℚ) (left : ℕ) (right : ℤ) : ℚ :=
  if h : (left : ℤ) ≤ right then
    let mid : ℕ := ((left : ℤ) + right).toNat / 2
    let s := S.getD mid (0, 0)
    if s.1 = t then s.2
    else if s.1 < t then bsearchGo S t (mid + 1) right
    else bsearchGo S t left ((mid : ℤ) - 1)
  else if 0 ≤ right then (S.getD right.toNat (0, 0)).2 else 0
termination_by (right + 1 - left).toNat
decreasing_by
  · omega
  · omega

/-- `getIntensityAt(time)` on a finite time: 0 on an empty store, otherwise
binary search over the segments. -/
def getIntensityAt (S : List Seg) (t : ℚ) : ℚ :=
  if S.length = 0 then 0 else bsearchGo S t 0 ((S.length : ℤ) - 1)

/-! ## The JavaScript `number` boundary -/

/-- A JavaScript `number` argument: finite, `±Infinity`, or `NaN`. -/
inductive JsNum where
  | fin (q : ℚ)
  | posInf
  | negInf
  | nan
deriving DecidableEq

/-- `Number.isFinite`. -/
def JsNum.isFinite : JsNum → Bool
  | .fin _ => true
  | _ => false

/-- The two error kinds thrown by the validation layer. -/
inductive JsErr where
  | typeError
  | rangeError
deriving DecidableEq

/-- `validateTimeRange`: non-finite endpoints raise `RangeError`, then
`from >= to` raises `RangeError`.  (The `typeof` check cannot fire: every
`JsNum` is a number.) -/
def validateTimeRange (f t : JsNum) : Option JsErr :=
  match f, t with
  | .fin a, .fin b => if a ≥ b then some .rangeError else none
  | _, _ => some .rangeError

/-- `validateIntensity`: non-finite amounts raise `RangeError`. -/
def validateIntensity : JsNum → Option JsErr
  | .fin _ => none
  | _ => some .rangeError

/-- `add` including validation: returns the (unchanged on error) store and
the error thrown, if any.  Validation runs before any mutation. -/
def addJs (S : List Seg) (f t a : JsNum) : List Seg × Option JsErr :=
  match validateTimeRange f t with
  | some e => (S, some e)
  | none =>
    match validateIntensity a with
    | some e => (S, some e)
    | none =>
      match f, t, a with
      | .fin qf, .fin qt, .fin qa => (add S qf qt qa, none)
      | _, _, _ => (S, some .typeError)

/-- `set` including validation. -/
def setJs (S : List Seg) (f t a : JsNum) : List Seg × Option JsErr :=
  match validateTimeRange f t with
  | some e => (S, some e)
  | none =>
    match validateIntensity a with
    | some e => (S, some e)
    | none =>
      match f, t, a with
      | .fin qf, .fin qt, .fin qa => (set S qf qt qa, none)
      | _, _, _ => (S, some .typeError)

/-- `getIntensityAt` including its guard
`typeof time !== 'number' || !Number.isFinite(time)`, which throws
`TypeError`; on a finite time the lookup always returns a value. -/
def getIntensityAtJs (S : List Seg) (t : JsNum) : Except JsErr ℚ :=
  match t with
  | .fin q => .ok (getIntensityAt S q)
  | _ => .error .typeError

/-! ## Serialization (`toString` = `JSON.stringify(this.segments)`) -/

/-- Rendering of one stored number.  On the integral values produced by the
scenarios under verification this coincides with JSON number rendering. -/
def ratStr (q : ℚ) : String := toString q

/-- One `[point, intensity]` pair. -/
def segStr (s : Seg) : String := "[" ++ ratStr s.1 ++ "," ++ ratStr s.2 ++ "]"

/-- The comma separator used by `JSON.stringify`. -/
def commaStr : String := ","

/-- `toString()`: `JSON.stringify` of the segment array. -/
def serialize (S : List Seg) : String :=
  "[" ++ String.intercalate commaStr (S.map segStr) ++ "]"

/-! ## Reachable stores -/

/-- Stores reachable from the freshly constructed empty store by valid
`add`/`set` calls (arguments that pass validation, i.e. finite with
`from < to`). -/
inductive Reachable : List Seg → Prop where
  | empty : Reachable []
  | add : ∀ {S : List Seg} (a b x : ℚ), Reachable S → a < b →
      Reachable (IntensitySegments.add S a b x)
  | set : ∀ {S : List Seg} (a b x : ℚ), Reachable S → a < b →
      Reachable (IntensitySegments.set S a b x)

/-! ## Specification-side definitions (from the spec's wording) -/

/-- Left-to-right scan returning the value of the last segment whose point is
`≤ t`, with default `d`. -/
def valueFrom : ℚ → List Seg → ℚ → ℚ
  | d, [], _ => d
  | d, (p, v) :: rest, t => valueFrom (if p ≤ t then v else d) rest t

/-- The sum of all deltas of `D` contributed at points `≤ t`; the value at
`t` of the step function described by the delta list `D`. -/
def evalDeltas (D : List Seg) (t : ℚ) : ℚ :=
  ((D.filter fun d => decide (d.1 ≤ t)).map Prod.snd).sum

/-- Zero-valued segment test used by the normalizer. -/
def zeroVal : Seg → Bool := fun s => decide (s.2 = 0)

/-- The leading-zero removal performed by `filterSegs _ false` (proved below:
`filterSegs_false`). -/
def dropLeadZeros (L : List Seg) : List Seg := L.dropWhile zeroVal

/-- The trailing-zero trim, phrased on the un-reversed list. -/
def trimTail (L : List Seg) : List Seg := (trimRev L.reverse).reverse

/-- The whole normalization filter of `applyChanges` after the cumulative
sweep: drop leading zero segments, then trim the trailing zero run. -/
def cleanup (L : List Seg) : List Seg := trimTail (dropLeadZeros L)

/-- The maximal zero-valued suffix of `L`. -/
def zTail (L : List Seg) : List Seg := (L.reverse.takeWhile zeroVal).reverse

/-- `L` without its maximal zero-valued suffix. -/
def zBody (L : List Seg) : List Seg := (L.reverse.dropWhile zeroVal).reverse

/-- The spec's `valueAt`: the value of the last segment whose point is `≤ t`,
or 0 when no such segment exists (in particular on the empty store). -/
def lastLeVal (S : List Seg) (t : ℚ) : ℚ :=
  (((S.filter fun s => decide (s.1 ≤ t)).getLast?).map Prod.snd).getD 0

/-! ## Basic lemmas -/

theorem find?_reverse_eq_getLast?_filter (p : Seg → Bool) (S : List Seg) :
    S.reverse.find? p = (S.filter p).getLast? := by
  induction S with
  | nil => rfl
  | cons x xs ih =>
    rw [List.reverse_cons, List.find?_append, List.filter_cons, ih]
    cases hx : p x
    · simp [hx]
    · cases hfil : xs.filter p with
      | nil => simp [hfil, hx]
      | cons y ys => simp [hfil, hx, List.getLast?_cons_cons, List.getLast?_cons]

/-- The carry-over scan of `set` computes the spec's "value of the last
pre-existing segment whose point is `≤ to`, or 0 if none". -/
theorem carryAfter_eq_lastLeVal (S : List Seg) (b : ℚ) :
    carryAfter S b = lastLeVal S b := by
  unfold carryAfter lastLeVal
  rw [find?_reverse_eq_getLast?_filter]

/-! ## The normalization filter: closed forms -/

theorem filterSegs_true (L : List Seg) : filterSegs L true = L := by
  induction L with
  | nil => rfl
  | cons s rest ih =>
    obtain ⟨p, v⟩ := s
    simp [filterSegs, ih]

theorem filterSegs_false (L : List Seg) : filterSegs L false = dropLeadZeros L := by
  induction L with
  | nil => rfl
  | cons s rest ih =>
    obtain ⟨p, v⟩ := s
    by_cases hv : v = 0
    · simp [filterSegs, dropLeadZeros, List.dropWhile_cons, zeroVal, hv] at ih ⊢
      exact ih
    · simp [filterSegs, dropLeadZeros, List.dropWhile_cons, zeroVal, hv, filterSegs_true]

theorem trimRev_eq (R : List Seg) :
    trimRev R = (R.takeWhile zeroVal).drop ((R.takeWhile zeroVal).length - 1)
      ++ R.dropWhile zeroVal := by
  induction R with
  | nil => rfl
  | cons a R ih =>
    cases R with
    | nil =>
      obtain ⟨p, v⟩ := a
      by_cases ha : v = 0 <;>
        simp [trimRev, List.takeWhile_cons, List.dropWhile_cons, zeroVal, ha]
    | cons b R2 =>
      obtain ⟨p1, v1⟩ := a
      obtain ⟨p2, v2⟩ := b
      by_cases h1 : v1 = 0
      · by_cases h2 : v2 = 0
        · rw [show trimRev ((p1, v1) :: (p2, v2) :: R2) = trimRev ((p2, v2) :: R2) by
            simp [trimRev, h1, h2], ih]
          simp only [List.takeWhile_cons, List.dropWhile_cons, zeroVal, h1, h2]
          simp [List.drop_succ_cons, Nat.add_sub_cancel]
        · rw [show trimRev ((p1, v1) :: (p2, v2) :: R2) = (p1, v1) :: (p2, v2) :: R2 by
            simp [trimRev, h2]]
          simp [List.takeWhile_cons, List.dropWhile_cons, zeroVal, h1, h2]
      · rw [show trimRev ((p1, v1) :: (p2, v2) :: R2) = (p1, v1) :: (p2, v2) :: R2 by
          simp [trimRev, h1]]
        simp [List.takeWhile_cons, List.dropWhile_cons, zeroVal, h1]

theorem zBody_append_zTail (L : List Seg) : zBody L ++ zTail L = L := by
  unfold zBody zTail
  rw [← List.reverse_append, List.takeWhile_append_dropWhile, List.reverse_reverse]

theorem drop_length_sub_one_reverse {α : Type} (X : List α) :
    (X.drop (X.length - 1)).reverse = X.reverse.take 1 := by
  rw [List.take_reverse]

theorem trimTail_eq (L : List Seg) : trimTail L = zBody L ++ (zTail L).take 1 := by
  unfold trimTail
  rw [trimRev_eq, List.reverse_append]
  congr 1
  exact drop_length_sub_one_reverse _

theorem applyChanges_eq (D : List Seg) :
    applyChanges D = cleanup (accumSegs D (changeKeys D) 0) := by
  unfold applyChanges cleanup trimTail
  rw [filterSegs_false]

theorem trimTail_sublist (L : List Seg) : List.Sublist (trimTail L) L := by
  rw [trimTail_eq]
  conv_rhs => rw [← zBody_append_zTail L]
  exact ((zTail L).take_sublist 1).append_left _

theorem cleanup_sublist (L : List Seg) : List.Sublist (cleanup L) L :=
  (trimTail_sublist _).trans (List.dropWhile_sublist _)

theorem head?_trimTail (L : List Seg) : (trimTail L).head? = L.head? := by
  rw [trimTail_eq]
  cases hB : zBody L with
  | nil =>
    have hL : zTail L = L := by
      have h2 := zBody_append_zTail L
      rw [hB] at h2
      simpa using h2
    rw [List.nil_append, List.head?_take, hL]
    simp
  | cons x xs =>
    conv_rhs => rw [← zBody_append_zTail L, hB]
    simp

theorem mem_zTail_zero {L : List Seg} {s : Seg} (h : s ∈ zTail L) : s.2 = 0 := by
  unfold zTail at h
  rw [List.mem_reverse] at h
  have := List.mem_takeWhile_imp h
  simpa [zeroVal] using this

theorem trimRev_no_two_zeros (R : List Seg) :
    ∀ x y rest, trimRev R = x :: y :: rest → ¬(x.2 = 0 ∧ y.2 = 0) := by
  induction R with
  | nil => intro x y rest h; exact absurd h (by simp [trimRev])
  | cons a R ih =>
    cases R with
    | nil =>
      intro x y rest h
      obtain ⟨p, v⟩ := a
      exact absurd h (by simp [trimRev])
    | cons b R2 =>
      obtain ⟨p1, v1⟩ := a
      obtain ⟨p2, v2⟩ := b
      intro x y rest h
      by_cases h12 : v1 = 0 ∧ v2 = 0
      · rw [show trimRev ((p1, v1) :: (p2, v2) :: R2) = trimRev ((p2, v2) :: R2) by
          simp [trimRev, h12.1, h12.2]] at h
        exact ih x y rest h
      · rw [show trimRev ((p1, v1) :: (p2, v2) :: R2) = (p1, v1) :: (p2, v2) :: R2 by
          simp only [trimRev, if_neg h12]] at h
        injection h with h1 h2
        injection h2 with h2 h3
        subst h1
        subst h2
        simpa using h12

theorem applyChanges_no_two_trailing_zeros (D : List Seg) :
    ∀ x y rest, (applyChanges D).reverse = x :: y :: rest → ¬(x.2 = 0 ∧ y.2 = 0) := by
  intro x y rest h
  unfold applyChanges at h
  rw [List.reverse_reverse] at h
  exact trimRev_no_two_zeros _ x y rest h

/-! ## Keys, sortedness, and cumulative sums -/

theorem changeKeys_nodup (D : List Seg) : (changeKeys D).Nodup :=
  ((List.perm_insertionSort (· ≤ ·) _).nodup_iff).mpr (List.nodup_dedup _)

theorem changeKeys_sorted (D : List Seg) : (changeKeys D).Sorted (· < ·) :=
  (List.sorted_insertionSort (· ≤ ·) _).lt_of_le (changeKeys_nodup D)

theorem mem_changeKeys {D : List Seg} {d : Seg} (h : d ∈ D) : d.1 ∈ changeKeys D := by
  unfold changeKeys
  rw [List.mem_insertionSort, List.mem_dedup]
  exact List.mem_map_of_mem Prod.fst h

theorem changeKeys_ne_nil {D : List Seg} (h : D ≠ []) : changeKeys D ≠ [] := by
  obtain ⟨d, hd⟩ := List.exists_mem_of_ne_nil D h
  intro hc
  have hmem := mem_changeKeys hd
  rw [hc] at hmem
  exact absurd hmem (List.not_mem_nil _)

theorem map_fst_accumSegs (D : List Seg) : ∀ (K : List ℚ) (acc : ℚ),
    (accumSegs D K acc).map Prod.fst = K := by
  intro K
  induction K with
  | nil => intro acc; rfl
  | cons k K2 ih => intro acc; simp [accumSegs, ih]

theorem accumSegs_sorted (D : List Seg) :
    (accumSegs D (changeKeys D) 0).Pairwise (fun s t : Seg => s.1 < t.1) := by
  have h := changeKeys_sorted D
  rw [← map_fst_accumSegs D (changeKeys D) 0] at h
  exact (List.pairwise_map).mp h

theorem applyChanges_sorted (D : List Seg) :
    (applyChanges D).Pairwise (fun s t : Seg => s.1 < t.1) := by
  rw [applyChanges_eq]
  exact (accumSegs_sorted D).sublist (cleanup_sublist _)

theorem applyChanges_head_ne_zero (D : List Seg) :
    ∀ s, (applyChanges D).head? = some s → s.2 ≠ 0 := by
  intro s hs
  rw [applyChanges_eq] at hs
  unfold cleanup at hs
  rw [head?_trimTail] at hs
  unfold dropLeadZeros at hs
  have hns := List.head?_dropWhile_not zeroVal (accumSegs D (changeKeys D) 0)
  rw [hs] at hns
  simpa [zeroVal] using hns

theorem suffix_getLast? {l₁ l₂ : List Seg} (h : l₁ <:+ l₂) (hne : l₁ ≠ []) :
    l₂.getLast? = l₁.getLast? := by
  obtain ⟨t, rfl⟩ := h
  exact List.getLast?_append_of_ne_nil _ hne

theorem zTail_ne_nil {L : List Seg} {s : Seg} (hL : L.getLast? = some s) (hs : s.2 = 0) :
    zTail L ≠ [] := by
  unfold zTail
  simp only [ne_eq, List.reverse_eq_nil_iff]
  have hh : L.reverse.head? = some s := by rw [List.head?_reverse, hL]
  cases hrev : L.reverse with
  | nil => rw [hrev] at hh; exact absurd hh (by simp)
  | cons x xs =>
    rw [hrev] at hh
    injection hh with hx
    subst hx
    simp [List.takeWhile_cons, zeroVal, hs]

theorem trimTail_getLast_of_zTail_ne_nil {L : List Seg} (h : zTail L ≠ []) :
    ∃ s, (trimTail L).getLast? = some s ∧ s.2 = 0 := by
  rw [trimTail_eq]
  cases hz : zTail L with
  | nil => exact absurd hz h
  | cons z zs =>
    refine ⟨z, ?_, mem_zTail_zero (by rw [hz]; exact List.mem_cons_self z zs)⟩
    rw [show (z :: zs).take 1 = [z] by simp, List.getLast?_concat]

theorem cleanup_last_zero {L : List Seg}
    (h : ∀ s, L.getLast? = some s → s.2 = 0) :
    cleanup L = [] ∨ ∃ s, (cleanup L).getLast? = some s ∧ s.2 = 0 := by
  unfold cleanup
  cases hdl : dropLeadZeros L with
  | nil => left; rfl
  | cons x xs =>
    right
    have hsuf : dropLeadZeros L <:+ L := List.dropWhile_suffix _
    have hlast : L.getLast? = (dropLeadZeros L).getLast? :=
      suffix_getLast? hsuf (by rw [hdl]; exact List.cons_ne_nil _ _)
    have hne : (dropLeadZeros L).getLast? ≠ none := by
      rw [hdl]
      simp [List.getLast?_eq_none_iff]
    obtain ⟨s, hses⟩ : ∃ s, (dropLeadZeros L).getLast? = some s := by
      cases he : (dropLeadZeros L).getLast? with
      | none => exact absurd he hne
      | some s => exact ⟨s, rfl⟩
    have hs0 : s.2 = 0 := h s (by rw [hlast, hses])
    rw [← hdl]
    exact trimTail_getLast_of_zTail_ne_nil (zTail_ne_nil hses hs0)

theorem sum_map_ite_not_mem (K : List ℚ) (c x : ℚ) (h : c ∉ K) :
    (K.map fun k => if c = k then x else 0).sum = 0 := by
  induction K with
  | nil => rfl
  | cons k K2 ih =>
    have hck : c ≠ k := fun hc => h (hc ▸ List.mem_cons_self k K2)
    have h2 : c ∉ K2 := fun hc => h (List.mem_cons_of_mem _ hc)
    simp [hck, ih h2]

theorem sum_map_ite_mem (K : List ℚ) (hK : K.Nodup) (c x : ℚ) :
    (K.map fun k => if c = k then x else 0).sum = if c ∈ K then x else 0 := by
  induction K with
  | nil => rfl
  | cons k K2 ih =>
    rcases List.nodup_cons.mp hK with ⟨hk, hK2⟩
    by_cases hck : c = k
    · subst hck
      simp [sum_map_ite_not_mem K2 c x hk]
    · simp only [List.map_cons, List.sum_cons, if_neg hck, zero_add, ih hK2]
      simp [List.mem_cons, hck]

theorem sumAt_cons (d : Seg) (D : List Seg) (p : ℚ) :
    sumAt (d :: D) p = (if d.1 = p then d.2 else 0) + sumAt D p := by
  unfold sumAt
  rw [List.filter_cons]
  by_cases h : d.1 = p <;> simp [h]

theorem sum_map_sumAt (D : List Seg) : ∀ (K : List ℚ), K.Nodup → (∀ x ∈ D, x.1 ∈ K) →
    (K.map (sumAt D)).sum = (D.map Prod.snd).sum := by
  induction D with
  | nil =>
    intro K _ _
    have h0 : K.map (sumAt []) = K.map fun _ => (0 : ℚ) :=
      List.map_congr_left fun k _ => rfl
    rw [h0]
    simp
  | cons d D2 ih =>
    intro K hK hc
    have hmap : K.map (sumAt (d :: D2)) =
        K.map fun k => (if d.1 = k then d.2 else 0) + sumAt D2 k :=
      List.map_congr_left fun k _ => sumAt_cons d D2 k
    rw [hmap, List.sum_map_add, sum_map_ite_mem K hK d.1 d.2,
      if_pos (hc d (List.mem_cons_self d D2)),
      ih K hK fun x hx => hc x (List.mem_cons_of_mem _ hx)]
    simp

theorem accumSegs_eq_nil_iff (D : List Seg) (K : List ℚ) (acc : ℚ) :
    accumSegs D K acc = [] ↔ K = [] := by
  cases K with
  | nil => simp [accumSegs]
  | cons k K2 => simp [accumSegs]

theorem accumSegs_getLast? (D : List Seg) : ∀ (K : List ℚ) (acc : ℚ), K ≠ [] →
    ∃ p, (accumSegs D K acc).getLast? = some (p, acc + (K.map (sumAt D)).sum) := by
  intro K
  induction K with
  | nil => intro acc h; exact absurd rfl h
  | cons k K2 ih =>
    intro acc _
    by_cases h2 : K2 = []
    · subst h2
      exact ⟨k, by simp [accumSegs]⟩
    · obtain ⟨p, hp⟩ := ih (acc + sumAt D k) h2
      refine ⟨p, ?_⟩
      have hne : accumSegs D K2 (acc + sumAt D k) ≠ [] := by
        intro hc
        exact h2 ((accumSegs_eq_nil_iff D K2 _).mp hc)
      rw [show accumSegs D (k :: K2) acc =
          [(k, acc + sumAt D k)] ++ accumSegs D K2 (acc + sumAt D k) from rfl,
        List.getLast?_append_of_ne_nil _ hne, hp, List.map_cons, List.sum_cons, add_assoc]

theorem deriveDeltas_sum (S : List Seg) :
    ((deriveDeltas S).map Prod.snd).sum = (S.getLast?.map Prod.snd).getD 0 := by
  induction S with
  | nil => rfl
  | cons s S2 ih =>
    cases S2 with
    | nil =>
      obtain ⟨p, v⟩ := s
      simp [deriveDeltas]
    | cons s2 S3 =>
      obtain ⟨p, v⟩ := s
      obtain ⟨q, w⟩ := s2
      rw [show deriveDeltas ((p, v) :: (q, w) :: S3) =
          (p, v) :: (q, -v) :: deriveDeltas ((q, w) :: S3) from rfl]
      simp only [List.map_cons, List.sum_cons, List.getLast?_cons_cons] at ih ⊢
      rw [ih, ← add_assoc]
      simp

theorem deriveSetDeltas_sum (mp : ℚ) (L : List Seg) :
    ((deriveSetDeltas mp L).map Prod.snd).sum = 0 := by
  induction L with
  | nil => rfl
  | cons s L2 ih =>
    cases L2 with
    | nil =>
      obtain ⟨p, v⟩ := s
      by_cases hv : v = 0
      · simp [deriveSetDeltas, hv]
      · simp [deriveSetDeltas, hv]
    | cons s2 L3 =>
      obtain ⟨p, v⟩ := s
      obtain ⟨q, w⟩ := s2
      rw [show deriveSetDeltas mp ((p, v) :: (q, w) :: L3) =
          (p, v) :: (q, -v) :: deriveSetDeltas mp ((q, w) :: L3) from rfl]
      simp only [List.map_cons, List.sum_cons] at ih ⊢
      rw [ih, ← add_assoc]
      simp

theorem applyChanges_last_zero {D : List Seg} (h : (D.map Prod.snd).sum = 0) :
    applyChanges D = [] ∨ ∃ s, (applyChanges D).getLast? = some s ∧ s.2 = 0 := by
  rw [applyChanges_eq]
  by_cases hD : D = []
  · subst hD
    left
    rfl
  · obtain ⟨p, hp⟩ := accumSegs_getLast? D (changeKeys D) 0 (changeKeys_ne_nil hD)
    refine cleanup_last_zero ?_
    intro s hses
    rw [hp] at hses
    injection hses with h2
    rw [← h2]
    show 0 + (List.map (sumAt D) (changeKeys D)).sum = 0
    rw [sum_map_sumAt D (changeKeys D) (changeKeys_nodup D) fun x hx => mem_changeKeys hx, h,
      add_zero]

theorem applyChanges_ne_trailing_pair (D : List Seg) (pre : List Seg) (p q : ℚ) :
    applyChanges D ≠ pre ++ [(p, 0), (q, 0)] := by
  intro hc
  have hrev : (applyChanges D).reverse = (q, 0) :: (p, 0) :: pre.reverse := by
    rw [hc]
    simp
  exact applyChanges_no_two_trailing_zeros D _ _ _ hrev ⟨rfl, rfl⟩

theorem reachable_sorted {S : List Seg} (h : Reachable S) :
    S.Pairwise (fun s t : Seg => s.1 < t.1) := by
  induction h with
  | empty => exact List.Pairwise.nil
  | add a b x hS hab ih => exact applyChanges_sorted _
  | set a b x hS hab ih => exact applyChanges_sorted _

theorem reachable_last_zero {S : List Seg} (h : Reachable S) :
    S = [] ∨ ∃ s, S.getLast? = some s ∧ s.2 = 0 := by
  induction h with
  | empty => exact Or.inl rfl
  | add a b x hS hab ih =>
    apply applyChanges_last_zero
    rw [List.map_append, List.sum_append, deriveDeltas_sum]
    rcases ih with h0 | ⟨s, hs, hs0⟩
    · subst h0
      simp
    · rw [hs]
      simp [hs0]
  | set a b x hS hab ih =>
    exact applyChanges_last_zero (deriveSetDeltas_sum _ _)

theorem lastZero_forall {X : List Seg}
    (h : X = [] ∨ ∃ s, X.getLast? = some s ∧ s.2 = 0) :
    ∀ s, X.getLast? = some s → s.2 = 0 := by
  intro s hs
  rcases h with rfl | ⟨s2, hs2, h0⟩
  · exact absurd hs (by simp)
  · rw [hs] at hs2
    injection hs2 with he
    rw [he]
    exact h0

/-! ## Pointwise semantics -/

theorem valueFrom_append (d : ℚ) (A B : List Seg) (t : ℚ) :
    valueFrom d (A ++ B) t = valueFrom (valueFrom d A t) B t := by
  induction A generalizing d with
  | nil => rfl
  | cons s A2 ih =>
    obtain ⟨p, v⟩ := s
    simp only [List.cons_append, valueFrom]
    exact ih _

theorem valueFrom_of_all_gt {L : List Seg} {t : ℚ} (h : ∀ s ∈ L, t < s.1) (d : ℚ) :
    valueFrom d L t = d := by
  induction L generalizing d with
  | nil => rfl
  | cons s L2 ih =>
    obtain ⟨p, v⟩ := s
    have hp : ¬ p ≤ t := not_le.mpr (h (p, v) (List.mem_cons_self _ _))
    simp only [valueFrom, if_neg hp]
    exact ih (fun s hs => h s (List.mem_cons_of_mem _ hs)) d

theorem valueFrom_congr_default {L : List Seg} {t : ℚ} (hhit : ∃ s ∈ L, s.1 ≤ t) (d : ℚ) :
    valueFrom d L t = valueFrom 0 L t := by
  induction L generalizing d with
  | nil =>
    obtain ⟨s, hs, _⟩ := hhit
    exact absurd hs (List.not_mem_nil s)
  | cons s L2 ih =>
    obtain ⟨p, v⟩ := s
    by_cases hp : p ≤ t
    · simp [valueFrom, hp]
    · obtain ⟨s2, hs2, hle⟩ := hhit
      rcases List.mem_cons.mp hs2 with rfl | h2
      · exact absurd hle hp
      · simp only [valueFrom, if_neg hp]
        rw [ih ⟨s2, h2, hle⟩ d]

theorem valueFrom_all_zero {Z : List Seg} (hZ : ∀ s ∈ Z, s.2 = 0) (d t : ℚ) :
    valueFrom d Z t = if Z.any fun s => decide (s.1 ≤ t) then 0 else d := by
  induction Z generalizing d with
  | nil => simp [valueFrom]
  | cons s Z2 ih =>
    obtain ⟨p, v⟩ := s
    have hv : v = 0 := hZ (p, v) (List.mem_cons_self _ _)
    subst hv
    have hZ2 : ∀ s ∈ Z2, s.2 = 0 := fun s hs => hZ s (List.mem_cons_of_mem _ hs)
    by_cases hp : p ≤ t
    · simp only [valueFrom, if_pos hp, ih hZ2]
      simp [hp]
    · simp only [valueFrom, if_neg hp, ih hZ2]
      rw [List.any_cons, decide_eq_false hp, Bool.false_or]

theorem valueFrom_eq_lastLeVal (L : List Seg) (t : ℚ) :
    valueFrom 0 L t = lastLeVal L t := by
  induction L with
  | nil => rfl
  | cons s L2 ih =>
    obtain ⟨p, v⟩ := s
    by_cases hp : p ≤ t
    · simp only [valueFrom, if_pos hp]
      by_cases hhit : ∃ s ∈ L2, s.1 ≤ t
      · rw [valueFrom_congr_default hhit v, ih]
        have hne : L2.filter (fun s => decide (s.1 ≤ t)) ≠ [] := by
          obtain ⟨s2, hs2, hle⟩ := hhit
          intro hc
          have hno := List.filter_eq_nil_iff.mp hc s2 hs2
          simp [hle] at hno
        unfold lastLeVal
        rw [List.filter_cons, if_pos (by simp [hp]),
          show ((p, v) :: L2.filter fun s => decide (s.1 ≤ t))
              = [(p, v)] ++ L2.filter (fun s => decide (s.1 ≤ t)) from rfl,
          List.getLast?_append_of_ne_nil _ hne]
      · push_neg at hhit
        rw [valueFrom_of_all_gt (fun s hs => hhit s hs) v]
        have hfil : L2.filter (fun s => decide (s.1 ≤ t)) = [] :=
          List.filter_eq_nil_iff.mpr fun s hs => by simp [not_le.mpr (hhit s hs)]
        unfold lastLeVal
        rw [List.filter_cons, if_pos (by simp [hp]), hfil]
        rfl
    · simp only [valueFrom, if_neg hp]
      rw [ih]
      unfold lastLeVal
      rw [List.filter_cons, if_neg (by simp [hp])]

theorem evalDeltas_nil (t : ℚ) : evalDeltas [] t = 0 := rfl

theorem evalDeltas_cons (d : Seg) (D : List Seg) (t : ℚ) :
    evalDeltas (d :: D) t = (if d.1 ≤ t then d.2 else 0) + evalDeltas D t := by
  unfold evalDeltas
  rw [List.filter_cons]
  by_cases h : d.1 ≤ t <;> simp [h]

theorem evalDeltas_append (A B : List Seg) (t : ℚ) :
    evalDeltas (A ++ B) t = evalDeltas A t + evalDeltas B t := by
  unfold evalDeltas
  rw [List.filter_append, List.map_append, List.sum_append]

theorem sum_filter_sumAt (t : ℚ) (D : List Seg) : ∀ (K : List ℚ), K.Nodup →
    (∀ x ∈ D, x.1 ∈ K) →
    ((K.filter fun j => decide (j ≤ t)).map (sumAt D)).sum = evalDeltas D t := by
  induction D with
  | nil =>
    intro K _ _
    have h0 : (K.filter fun j => decide (j ≤ t)).map (sumAt []) =
        (K.filter fun j => decide (j ≤ t)).map fun _ => (0 : ℚ) :=
      List.map_congr_left fun k _ => rfl
    rw [h0, evalDeltas_nil]
    simp
  | cons d D2 ih =>
    intro K hK hc
    have hmap : (K.filter fun j => decide (j ≤ t)).map (sumAt (d :: D2)) =
        (K.filter fun j => decide (j ≤ t)).map
          fun k => (if d.1 = k then d.2 else 0) + sumAt D2 k :=
      List.map_congr_left fun k _ => sumAt_cons d D2 k
    rw [hmap, List.sum_map_add,
      sum_map_ite_mem _ (hK.filter _) d.1 d.2,
      ih K hK fun x hx => hc x (List.mem_cons_of_mem _ hx), evalDeltas_cons]
    congr 1
    have hmem : d.1 ∈ K.filter (fun j => decide (j ≤ t)) ↔ d.1 ≤ t := by
      rw [List.mem_filter]
      simp [hc d (List.mem_cons_self d D2)]
    by_cases hd : d.1 ≤ t
    · rw [if_pos (hmem.mpr hd), if_pos hd]
    · rw [if_neg (fun hmm => hd (hmem.mp hmm)), if_neg hd]

theorem valueFrom_accum_general (D : List Seg) (t : ℚ) : ∀ (K : List ℚ),
    K.Sorted (· < ·) → ∀ (acc d : ℚ),
    valueFrom d (accumSegs D K acc) t =
      if ∃ k ∈ K, k ≤ t then
        acc + ((K.filter fun j => decide (j ≤ t)).map (sumAt D)).sum
      else d := by
  intro K
  induction K with
  | nil =>
    intro _ acc d
    simp [accumSegs, valueFrom]
  | cons k K2 ih =>
    intro hs acc d
    obtain ⟨hlt, hs2⟩ := List.pairwise_cons.mp hs
    show valueFrom d ((k, acc + sumAt D k) :: accumSegs D K2 (acc + sumAt D k)) t = _
    by_cases hk : k ≤ t
    · simp only [valueFrom, if_pos hk]
      rw [ih hs2 (acc + sumAt D k) (acc + sumAt D k)]
      have hhead : (k :: K2).filter (fun j => decide (j ≤ t)) =
          k :: K2.filter (fun j => decide (j ≤ t)) := by
        rw [List.filter_cons, if_pos (by simp [hk])]
      by_cases h2 : ∃ j ∈ K2, j ≤ t
      · rw [if_pos h2, if_pos ⟨k, List.mem_cons_self k K2, hk⟩, hhead, List.map_cons,
          List.sum_cons, add_assoc]
      · rw [if_neg h2, if_pos ⟨k, List.mem_cons_self k K2, hk⟩, hhead, List.map_cons,
          List.sum_cons]
        have hfil2 : K2.filter (fun j => decide (j ≤ t)) = [] := by
          rw [List.filter_eq_nil_iff]
          intro j hj
          simp only [decide_eq_true_eq]
          exact fun hjt => h2 ⟨j, hj, hjt⟩
        rw [hfil2]
        simp [add_assoc]
    · simp only [valueFrom, if_neg hk]
      rw [ih hs2 (acc + sumAt D k) d]
      have h2 : ¬ ∃ j ∈ K2, j ≤ t := by
        rintro ⟨j, hj, hjt⟩
        exact hk (le_trans (le_of_lt (hlt j hj)) hjt)
      have h3 : ¬ ∃ j ∈ k :: K2, j ≤ t := by
        rintro ⟨j, hj, hjt⟩
        rcases List.mem_cons.mp hj with rfl | hj2
        · exact hk hjt
        · exact h2 ⟨j, hj2, hjt⟩
      rw [if_neg h2, if_neg h3]

theorem valueFrom_accumSegs (D : List Seg) (t : ℚ) :
    valueFrom 0 (accumSegs D (changeKeys D) 0) t = evalDeltas D t := by
  rw [valueFrom_accum_general D t (changeKeys D) (changeKeys_sorted D) 0 0]
  by_cases hhit : ∃ k ∈ changeKeys D, k ≤ t
  · rw [if_pos hhit,
      sum_filter_sumAt t D (changeKeys D) (changeKeys_nodup D) fun x hx => mem_changeKeys hx,
      zero_add]
  · rw [if_neg hhit]
    unfold evalDeltas
    rw [List.filter_eq_nil_iff.mpr ?_]
    · rfl
    · intro d hd
      simp only [decide_eq_true_eq]
      exact fun hdt => hhit ⟨d.1, mem_changeKeys hd, hdt⟩

theorem valueFrom_dropLeadZeros (L : List Seg) (t : ℚ) :
    valueFrom 0 (dropLeadZeros L) t = valueFrom 0 L t := by
  conv_rhs => rw [← List.takeWhile_append_dropWhile (p := zeroVal) (l := L)]
  rw [valueFrom_append]
  have h0 : valueFrom 0 (L.takeWhile zeroVal) t = 0 := by
    rw [valueFrom_all_zero
      (fun s hs => by simpa [zeroVal] using List.mem_takeWhile_imp hs) 0 t]
    simp
  rw [h0]
  rfl

theorem valueFrom_trimTail {L : List Seg}
    (hs : L.Pairwise (fun a b : Seg => a.1 < b.1)) (t : ℚ) :
    valueFrom 0 (trimTail L) t = valueFrom 0 L t := by
  rw [trimTail_eq]
  conv_rhs => rw [← zBody_append_zTail L]
  rw [valueFrom_append, valueFrom_append]
  cases hz : zTail L with
  | nil => simp
  | cons z zs =>
    have hsub : List.Sublist (z :: zs) L := by
      rw [← hz]
      conv_rhs => rw [← zBody_append_zTail L]
      exact List.sublist_append_right _ _
    have hzpair := (List.pairwise_cons.mp (hs.sublist hsub)).1
    obtain ⟨p, v⟩ := z
    have hv : v = 0 := mem_zTail_zero (s := (p, v)) (by rw [hz]; exact List.mem_cons_self _ _)
    subst hv
    have hzs0 : ∀ s ∈ zs, s.2 = 0 :=
      fun s hs2 => mem_zTail_zero (by rw [hz]; exact List.mem_cons_of_mem _ hs2)
    rw [show ((p, (0 : ℚ)) :: zs).take 1 = [(p, 0)] from by simp]
    show valueFrom (if p ≤ t then 0 else valueFrom 0 (zBody L) t) [] t
      = valueFrom (if p ≤ t then 0 else valueFrom 0 (zBody L) t) zs t
    by_cases hp : p ≤ t
    · rw [if_pos hp, valueFrom_all_zero hzs0]
      simp [valueFrom]
    · rw [if_neg hp]
      show valueFrom 0 (zBody L) t = _
      rw [valueFrom_of_all_gt (fun s hs2 => lt_trans (not_le.mp hp) (hzpair s hs2))]

theorem valueFrom_applyChanges (D : List Seg) (t : ℚ) :
    valueFrom 0 (applyChanges D) t = evalDeltas D t := by
  rw [applyChanges_eq]
  unfold cleanup dropLeadZeros
  rw [valueFrom_trimTail ((accumSegs_sorted D).sublist (List.dropWhile_sublist _)),
    show List.dropWhile zeroVal (accumSegs D (changeKeys D) 0)
      = dropLeadZeros (accumSegs D (changeKeys D) 0) from rfl,
    valueFrom_dropLeadZeros, valueFrom_accumSegs]

theorem evalDeltas_deriveDeltas {S : List Seg}
    (hs : S.Pairwise (fun a b : Seg => a.1 < b.1)) (t : ℚ) :
    evalDeltas (deriveDeltas S) t = valueFrom 0 S t := by
  induction S with
  | nil => rfl
  | cons s S2 ih =>
    cases S2 with
    | nil =>
      obtain ⟨p, v⟩ := s
      by_cases hp : p ≤ t <;> simp [deriveDeltas, evalDeltas_cons, evalDeltas_nil, valueFrom, hp]
    | cons s2 S3 =>
      obtain ⟨p, v⟩ := s
      obtain ⟨q, w⟩ := s2
      obtain ⟨hlt, hs2⟩ := List.pairwise_cons.mp hs
      rw [show deriveDeltas ((p, v) :: (q, w) :: S3) =
          (p, v) :: (q, -v) :: deriveDeltas ((q, w) :: S3) from rfl,
        evalDeltas_cons, evalDeltas_cons, ih hs2]
      show (if p ≤ t then v else 0) + ((if q ≤ t then -v else 0)
          + valueFrom 0 ((q, w) :: S3) t)
        = valueFrom (if p ≤ t then v else 0) ((q, w) :: S3) t
      by_cases h1 : p ≤ t
      · rw [if_pos h1]
        by_cases h2 : q ≤ t
        · rw [if_pos h2, valueFrom_congr_default ⟨(q, w), List.mem_cons_self _ _, h2⟩ v,
            ← add_assoc]
          simp
        · have hgt : ∀ s3 ∈ (q, w) :: S3, t < s3.1 := by
            intro s3 hs3
            rcases List.mem_cons.mp hs3 with rfl | h3
            · exact not_le.mp h2
            · exact lt_trans (not_le.mp h2) ((List.pairwise_cons.mp hs2).1 s3 h3)
          rw [if_neg h2, valueFrom_of_all_gt hgt v, valueFrom_of_all_gt hgt 0]
          simp
      · have hpt : t < p := not_le.mp h1
        have hgt : ∀ s3 ∈ (q, w) :: S3, t < s3.1 :=
          fun s3 hs3 => lt_trans hpt (hlt s3 hs3)
        have h2 : ¬ q ≤ t := not_le.mpr (hgt (q, w) (List.mem_cons_self _ _))
        rw [if_neg h1, if_neg h2, valueFrom_of_all_gt hgt 0]
        simp

theorem valueFrom_add {S : List Seg}
    (hs : S.Pairwise (fun a b : Seg => a.1 < b.1)) (a b x t : ℚ) :
    valueFrom 0 (add S a b x) t =
      valueFrom 0 S t + ((if a ≤ t then x else 0) + (if b ≤ t then -x else 0)) := by
  unfold IntensitySegments.add
  rw [valueFrom_applyChanges, evalDeltas_append, evalDeltas_deriveDeltas hs]
  congr 1
  rw [evalDeltas_cons, evalDeltas_cons, evalDeltas_nil, add_zero]

theorem valueFrom_breakpoint {L : List Seg}
    (hs : L.Pairwise (fun a b : Seg => a.1 < b.1)) :
    ∀ s ∈ L, valueFrom 0 L s.1 = s.2 := by
  induction L with
  | nil => intro s hs2; exact absurd hs2 (List.not_mem_nil s)
  | cons a L2 ih =>
    obtain ⟨p, v⟩ := a
    obtain ⟨hlt, hs2⟩ := List.pairwise_cons.mp hs
    intro s hmem
    rcases List.mem_cons.mp hmem with rfl | h2
    · simp only [valueFrom, le_refl, if_pos]
      exact valueFrom_of_all_gt (fun s2 hs3 => hlt s2 hs3) v
    · have hp : p ≤ s.1 := le_of_lt (hlt s h2)
      simp only [valueFrom, if_pos hp]
      rw [valueFrom_congr_default ⟨s, h2, le_refl s.1⟩ v]
      exact ih hs2 s h2

/-! ## Cleanup as a contiguous slice -/

theorem dropWhile_append_all {p : Seg → Bool} {Z : List Seg} (hZ : ∀ s ∈ Z, p s = true)
    (R : List Seg) : (Z ++ R).dropWhile p = R.dropWhile p := by
  induction Z with
  | nil => rfl
  | cons z Z2 ih =>
    rw [List.cons_append, List.dropWhile_cons, if_pos (hZ z (List.mem_cons_self _ _))]
    exact ih fun s hs => hZ s (List.mem_cons_of_mem _ hs)

theorem dropWhile_eq_nil_all {p : Seg → Bool} {Z : List Seg} (hZ : ∀ s ∈ Z, p s = true) :
    Z.dropWhile p = [] := by
  have h := dropWhile_append_all hZ []
  rwa [List.append_nil] at h

theorem takeWhile_append_all {p : Seg → Bool} {Z : List Seg} (hZ : ∀ s ∈ Z, p s = true)
    (R : List Seg) : (Z ++ R).takeWhile p = Z ++ R.takeWhile p := by
  induction Z with
  | nil => rfl
  | cons z Z2 ih =>
    rw [List.cons_append, List.takeWhile_cons, if_pos (hZ z (List.mem_cons_self _ _)),
      ih fun s hs => hZ s (List.mem_cons_of_mem _ hs), List.cons_append]

theorem zTail_append_zeros {X Z : List Seg} (hZ : ∀ s ∈ Z, s.2 = 0) :
    zTail (X ++ Z) = zTail X ++ Z := by
  unfold zTail
  rw [List.reverse_append,
    takeWhile_append_all (fun s hs => by simp [zeroVal, hZ s (List.mem_reverse.mp hs)]),
    List.reverse_append, List.reverse_reverse]

theorem zBody_append_zeros {X Z : List Seg} (hZ : ∀ s ∈ Z, s.2 = 0) :
    zBody (X ++ Z) = zBody X := by
  unfold zBody
  rw [List.reverse_append,
    dropWhile_append_all (fun s hs => by simp [zeroVal, hZ s (List.mem_reverse.mp hs)])]

theorem zTail_length_le_one {X : List Seg}
    (htrail : ∀ x y rest, X.reverse = x :: y :: rest → ¬(x.2 = 0 ∧ y.2 = 0)) :
    zTail X = [] ∨ ∃ z0, zTail X = [z0] := by
  cases hT : X.reverse.takeWhile zeroVal with
  | nil =>
    left
    unfold zTail
    rw [hT]
    rfl
  | cons t1 T2 =>
    cases hT2 : T2 with
    | nil =>
      right
      refine ⟨t1, ?_⟩
      unfold zTail
      rw [hT, hT2]
      rfl
    | cons t2 T3 =>
      exfalso
      rw [hT2] at hT
      have hrev : X.reverse = t1 :: t2 :: (T3 ++ X.reverse.dropWhile zeroVal) := by
        conv_lhs => rw [← List.takeWhile_append_dropWhile (p := zeroVal) (l := X.reverse), hT]
        rfl
      have h1 : t1.2 = 0 := by
        have := List.mem_takeWhile_imp (l := X.reverse) (p := zeroVal)
          (by rw [hT]; exact List.mem_cons_self _ _)
        simpa [zeroVal] using this
      have h2 : t2.2 = 0 := by
        have := List.mem_takeWhile_imp (l := X.reverse) (p := zeroVal)
          (by rw [hT]; exact List.mem_cons_of_mem _ (List.mem_cons_self _ _))
        simpa [zeroVal] using this
      exact htrail t1 t2 _ hrev ⟨h1, h2⟩

/-- `cleanup X` is `X` with an all-zero prefix and an all-zero (beyond one)
suffix removed; when the suffix removal is non-trivial, the kept part ends
with a zero segment. -/
theorem cleanup_decomposition (X : List Seg) :
    ∃ U W, X = U ++ cleanup X ++ W ∧ (∀ s ∈ U, s.2 = 0) ∧ (∀ s ∈ W, s.2 = 0) ∧
      (W ≠ [] → ∃ s, (cleanup X).getLast? = some s ∧ s.2 = 0) := by
  refine ⟨X.takeWhile zeroVal, (zTail (dropLeadZeros X)).drop 1, ?_, ?_, ?_, ?_⟩
  · conv_lhs => rw [← List.takeWhile_append_dropWhile (p := zeroVal) (l := X)]
    rw [List.append_assoc]
    congr 1
    unfold cleanup
    rw [trimTail_eq]
    rw [List.append_assoc, List.take_append_drop]
    exact (zBody_append_zTail (dropLeadZeros X)).symm
  · intro s hs
    simpa [zeroVal] using List.mem_takeWhile_imp hs
  · intro s hs
    exact mem_zTail_zero (List.drop_subset 1 _ hs)
  · intro hW
    cases hz : zTail (dropLeadZeros X) with
    | nil =>
      rw [hz] at hW
      exact absurd rfl hW
    | cons z zs =>
      refine ⟨z, ?_, mem_zTail_zero (by rw [hz]; exact List.mem_cons_self _ _)⟩
      unfold cleanup
      rw [trimTail_eq, hz, show (z :: zs).take 1 = [z] by simp, List.getLast?_concat]

/-- Cleaning an all-zero-padded version of a clean list gives the list back.
`X` must be clean: non-zero head, no two trailing zeros, and (when a
non-empty zero tail pad is present) a zero-valued last segment. -/
theorem cleanup_sandwich (Z1 X Z2 : List Seg)
    (hZ1 : ∀ s ∈ Z1, s.2 = 0) (hZ2 : ∀ s ∈ Z2, s.2 = 0)
    (hhead : ∀ s, X.head? = some s → s.2 ≠ 0)
    (htrail : ∀ x y rest, X.reverse = x :: y :: rest → ¬(x.2 = 0 ∧ y.2 = 0))
    (hlastz : Z2 ≠ [] → X ≠ [] → ∃ s, X.getLast? = some s ∧ s.2 = 0) :
    cleanup (Z1 ++ X ++ Z2) = X := by
  unfold cleanup dropLeadZeros
  rw [List.append_assoc,
    dropWhile_append_all (p := zeroVal) (fun s hs => by simp [zeroVal, hZ1 s hs])]
  cases hX : X with
  | nil =>
    rw [List.nil_append, dropWhile_eq_nil_all (fun s hs => by simp [zeroVal, hZ2 s hs])]
    rfl
  | cons x X2 =>
    have hx : zeroVal x = false := by
      have := hhead x (by rw [hX]; rfl)
      simpa [zeroVal] using this
    rw [List.cons_append, List.dropWhile_cons, if_neg (by simp [hx]), ← List.cons_append]
    rw [← hX]
    rw [trimTail_eq, zTail_append_zeros hZ2, zBody_append_zeros hZ2]
    rcases zTail_length_le_one htrail with h0 | ⟨z0, h1⟩
    · rw [h0, List.nil_append]
      cases hZ : Z2 with
      | nil =>
        rw [List.take_nil, List.append_nil]
        have h2 := zBody_append_zTail X
        rw [h0, List.append_nil] at h2
        exact h2
      | cons z2 Z3 =>
        exfalso
        obtain ⟨s, hs, hs0⟩ := hlastz (by rw [hZ]; exact List.cons_ne_nil _ _)
          (by rw [hX]; exact List.cons_ne_nil _ _)
        exact zTail_ne_nil hs hs0 h0
    · rw [h1, List.cons_append, List.nil_append,
        show (z0 :: Z2).take 1 = [z0] by simp, ← h1]
      exact zBody_append_zTail X

/-- A list with non-zero head and no two trailing zeros is a fixed point of
the normalization filter. -/
theorem cleanup_fix (X : List Seg)
    (hhead : ∀ s, X.head? = some s → s.2 ≠ 0)
    (htrail : ∀ x y rest, X.reverse = x :: y :: rest → ¬(x.2 = 0 ∧ y.2 = 0)) :
    cleanup X = X := by
  have h := cleanup_sandwich [] X [] (by simp) (by simp) hhead htrail
    (fun hc => absurd rfl hc)
  rwa [List.nil_append, List.append_nil] at h

/-! ## Normalization round trip -/

theorem mem_map_fst_deriveDeltas (L : List Seg) (x : ℚ) :
    x ∈ (deriveDeltas L).map Prod.fst ↔ x ∈ L.map Prod.fst := by
  induction L with
  | nil => exact Iff.rfl
  | cons s L2 ih =>
    cases L2 with
    | nil =>
      obtain ⟨p, v⟩ := s
      exact Iff.rfl
    | cons s2 L3 =>
      obtain ⟨p, v⟩ := s
      obtain ⟨q, w⟩ := s2
      rw [show deriveDeltas ((p, v) :: (q, w) :: L3)
          = (p, v) :: (q, -v) :: deriveDeltas ((q, w) :: L3) from rfl]
      simp only [List.map_cons, List.mem_cons] at ih ⊢
      tauto

theorem changeKeys_deriveDeltas {L : List Seg}
    (hs : L.Pairwise (fun a b : Seg => a.1 < b.1)) :
    changeKeys (deriveDeltas L) = L.map Prod.fst := by
  have hsK : (L.map Prod.fst).Sorted (· < ·) := List.pairwise_map.mpr hs
  have hnd : (L.map Prod.fst).Nodup := hsK.imp ne_of_lt
  haveI : IsAntisymm ℚ (· ≤ ·) := ⟨fun _ _ => le_antisymm⟩
  refine List.eq_of_perm_of_sorted (r := (· ≤ ·)) ?_ ?_ ?_
  · rw [List.perm_ext_iff_of_nodup (changeKeys_nodup _) hnd]
    intro x
    unfold changeKeys
    rw [List.mem_insertionSort, List.mem_dedup]
    exact mem_map_fst_deriveDeltas L x
  · exact (changeKeys_sorted _).imp le_of_lt
  · exact hsK.imp le_of_lt

theorem accumSegs_map (D : List Seg) : ∀ (K : List ℚ), K.Sorted (· < ·) → ∀ acc,
    accumSegs D K acc = K.map fun k =>
      (k, acc + ((K.filter fun j => decide (j ≤ k)).map (sumAt D)).sum) := by
  intro K
  induction K with
  | nil => intro _ _; rfl
  | cons k K2 ih =>
    intro hs acc
    obtain ⟨hlt, hs2⟩ := List.pairwise_cons.mp hs
    show (k, acc + sumAt D k) :: accumSegs D K2 (acc + sumAt D k) = _
    rw [List.map_cons]
    have hfilhead : (k :: K2).filter (fun j => decide (j ≤ k)) = [k] := by
      rw [List.filter_cons, if_pos (by simp),
        List.filter_eq_nil_iff.mpr fun j hj => by simp [not_le.mpr (hlt j hj)]]
    congr 1
    · rw [hfilhead]
      simp
    · rw [ih hs2 (acc + sumAt D k)]
      refine List.map_congr_left fun j hj => ?_
      have hkj : k < j := hlt j hj
      have hfil : (k :: K2).filter (fun i => decide (i ≤ j))
          = k :: K2.filter (fun i => decide (i ≤ j)) := by
        rw [List.filter_cons, if_pos (by simp [le_of_lt hkj])]
      rw [hfil, List.map_cons, List.sum_cons, ← add_assoc]

theorem applyChanges_deriveDeltas_eq_cleanup {L : List Seg}
    (hs : L.Pairwise (fun a b : Seg => a.1 < b.1)) :
    applyChanges (deriveDeltas L) = cleanup L := by
  rw [applyChanges_eq]
  have hsK : (L.map Prod.fst).Sorted (· < ·) := List.pairwise_map.mpr hs
  have hnd : (L.map Prod.fst).Nodup := hsK.imp ne_of_lt
  have hA : accumSegs (deriveDeltas L) (changeKeys (deriveDeltas L)) 0 = L := by
    rw [changeKeys_deriveDeltas hs, accumSegs_map _ _ hsK 0, List.map_map]
    have hcover : ∀ x ∈ deriveDeltas L, x.1 ∈ L.map Prod.fst :=
      fun x hx => (mem_map_fst_deriveDeltas L x.1).mp (List.mem_map_of_mem Prod.fst hx)
    have hmap : ∀ s ∈ L,
        ((fun k => (k, 0 + (((L.map Prod.fst).filter fun j => decide (j ≤ k)).map
          (sumAt (deriveDeltas L))).sum)) ∘ Prod.fst) s = s := by
      intro s hsm
      show (s.1, 0 + _) = s
      rw [sum_filter_sumAt s.1 (deriveDeltas L) (L.map Prod.fst) hnd hcover,
        evalDeltas_deriveDeltas hs, valueFrom_breakpoint hs s hsm, zero_add]
    rw [List.map_congr_left hmap]
    exact List.map_id L
  rw [hA]

theorem deriveSetDeltas_eq_deriveDeltas (mp : ℚ) : ∀ (L : List Seg),
    (∀ s, L.getLast? = some s → s.2 = 0) → deriveSetDeltas mp L = deriveDeltas L := by
  intro L
  induction L with
  | nil => intro _; rfl
  | cons s L2 ih =>
    cases L2 with
    | nil =>
      intro h
      obtain ⟨p, v⟩ := s
      have h0 : v = 0 := h (p, v) (by simp)
      simp [deriveSetDeltas, deriveDeltas, h0]
    | cons s2 L3 =>
      intro h
      obtain ⟨p, v⟩ := s
      obtain ⟨q, w⟩ := s2
      rw [show deriveSetDeltas mp ((p, v) :: (q, w) :: L3)
          = (p, v) :: (q, -v) :: deriveSetDeltas mp ((q, w) :: L3) from rfl,
        show deriveDeltas ((p, v) :: (q, w) :: L3)
          = (p, v) :: (q, -v) :: deriveDeltas ((q, w) :: L3) from rfl,
        ih fun s3 hs3 => h s3 (by rw [List.getLast?_cons_cons]; exact hs3)]

/-! ## Structure of `set` -/

theorem filter_gt_isSuffix (b : ℚ) : ∀ (S : List Seg),
    S.Pairwise (fun x y : Seg => x.1 < y.1) →
    (S.filter fun s => decide (b < s.1)) <:+ S := by
  intro S
  induction S with
  | nil => intro _; exact List.suffix_refl []
  | cons s S2 ih =>
    intro hs
    obtain ⟨hlt, hs2⟩ := List.pairwise_cons.mp hs
    rw [List.filter_cons]
    by_cases hb : b < s.1
    · rw [if_pos (by simp [hb]),
        List.filter_eq_self.mpr fun s2 hs2m => by simp [lt_trans hb (hlt s2 hs2m)]]
    · rw [if_neg (by simp [hb])]
      exact (ih hs2).trans (List.suffix_cons s S2)

theorem assembleSet_sorted {S : List Seg}
    (hs : S.Pairwise (fun x y : Seg => x.1 < y.1)) {a b : ℚ} (hab : a < b) (v : ℚ) :
    (assembleSet S a b v).Pairwise (fun x y : Seg => x.1 < y.1) := by
  unfold assembleSet
  rw [List.append_assoc, List.pairwise_append]
  refine ⟨hs.sublist (List.takeWhile_sublist _), ?_, ?_⟩
  · rw [List.pairwise_append]
    refine ⟨?_, hs.sublist (List.filter_sublist _), ?_⟩
    · exact List.pairwise_cons.mpr ⟨fun y hy => by
        rcases List.mem_cons.mp hy with rfl | hy2
        · exact hab
        · exact absurd hy2 (List.not_mem_nil _), List.pairwise_singleton _ _⟩
    · intro x hx y hy
      have hby : b < y.1 := by
        have := (List.mem_filter.mp hy).2
        simpa using this
      rcases List.mem_cons.mp hx with rfl | hx2
      · exact lt_trans hab hby
      · rcases List.mem_cons.mp hx2 with rfl | hx3
        · exact hby
        · exact absurd hx3 (List.not_mem_nil _)
  · intro x hx y hy
    have hxa : x.1 < a := by
      have := List.mem_takeWhile_imp hx
      simpa using this
    rw [List.mem_append] at hy
    rcases hy with hy1 | hy2
    · rcases List.mem_cons.mp hy1 with rfl | hy3
      · exact hxa
      · rcases List.mem_cons.mp hy3 with rfl | hy4
        · exact lt_trans hxa hab
        · exact absurd hy4 (List.not_mem_nil _)
    · have hby : b < y.1 := by
        have := (List.mem_filter.mp hy2).2
        simpa using this
      exact lt_trans hxa (lt_trans hab hby)

theorem assembleSet_last_zero {S : List Seg}
    (hs : S.Pairwise (fun x y : Seg => x.1 < y.1))
    (hlast : ∀ s, S.getLast? = some s → s.2 = 0) {a b : ℚ} (v : ℚ) :
    ∀ s, (assembleSet S a b v).getLast? = some s → s.2 = 0 := by
  intro s hsl
  unfold assembleSet at hsl
  cases hA : S.filter (fun s2 => decide (b < s2.1)) with
  | nil =>
    rw [hA, List.append_nil, List.getLast?_append_of_ne_nil _ (by simp)] at hsl
    have hseq : s = (b, carryAfter S b) := by
      simpa using hsl.symm
    have hall : ∀ s2 ∈ S, s2.1 ≤ b := by
      intro s2 hs2
      by_contra hc
      have hmem : s2 ∈ S.filter (fun s3 => decide (b < s3.1)) :=
        List.mem_filter.mpr ⟨hs2, by simp [not_le.mp hc]⟩
      rw [hA] at hmem
      exact absurd hmem (List.not_mem_nil _)
    have hc0 : carryAfter S b = 0 := by
      rw [carryAfter_eq_lastLeVal]
      unfold lastLeVal
      rw [List.filter_eq_self.mpr fun s2 hs2 => by simp [hall s2 hs2]]
      cases hS : S.getLast? with
      | none => rfl
      | some s2 => simp [hlast s2 hS]
    rw [hseq]
    exact hc0
  | cons x A2 =>
    rw [List.append_assoc, List.getLast?_append_of_ne_nil _ (by simp),
      List.getLast?_append_of_ne_nil _ (by rw [hA]; exact List.cons_ne_nil _ _),
      hA] at hsl
    have hsuf : (x :: A2) <:+ S := hA ▸ filter_gt_isSuffix b S hs
    refine hlast s ?_
    rw [suffix_getLast? hsuf (List.cons_ne_nil _ _)]
    exact hsl

theorem set_eq_cleanup {S : List Seg}
    (hs : S.Pairwise (fun x y : Seg => x.1 < y.1))
    (hlast : ∀ s, S.getLast? = some s → s.2 = 0) {a b : ℚ} (hab : a < b) (v : ℚ) :
    set S a b v = cleanup (assembleSet S a b v) := by
  unfold IntensitySegments.set
  rw [deriveSetDeltas_eq_deriveDeltas _ _ (assembleSet_last_zero hs hlast v)]
  exact applyChanges_deriveDeltas_eq_cleanup (assembleSet_sorted hs hab v)

theorem valueFrom_cleanup {L : List Seg}
    (hs : L.Pairwise (fun x y : Seg => x.1 < y.1)) (t : ℚ) :
    valueFrom 0 (cleanup L) t = valueFrom 0 L t := by
  unfold cleanup dropLeadZeros
  rw [valueFrom_trimTail (hs.sublist (List.dropWhile_sublist _)),
    show List.dropWhile zeroVal L = dropLeadZeros L from rfl, valueFrom_dropLeadZeros]

theorem carryAfter_cleanup_assembleSet {S : List Seg}
    (hs : S.Pairwise (fun x y : Seg => x.1 < y.1)) {a b : ℚ} (hab : a < b) (v : ℚ) :
    carryAfter (cleanup (assembleSet S a b v)) b = carryAfter S b := by
  rw [carryAfter_eq_lastLeVal, ← valueFrom_eq_lastLeVal,
    valueFrom_cleanup (assembleSet_sorted hs hab v) b]
  have hmem : ((b : ℚ), carryAfter S b) ∈ assembleSet S a b v := by
    unfold assembleSet
    simp
  have h := valueFrom_breakpoint (assembleSet_sorted hs hab v) _ hmem
  simpa using h

theorem sorted_partition (a b : ℚ) (hab : a ≤ b) : ∀ (S : List Seg),
    S.Pairwise (fun x y : Seg => x.1 < y.1) →
    S = (S.takeWhile fun s => decide (s.1 < a))
      ++ (S.filter fun s => decide (a ≤ s.1) && decide (s.1 ≤ b))
      ++ (S.filter fun s => decide (b < s.1)) := by
  intro S
  induction S with
  | nil => intro _; rfl
  | cons s S2 ih =>
    intro hs
    obtain ⟨hlt, hs2⟩ := List.pairwise_cons.mp hs
    rw [List.takeWhile_cons, List.filter_cons, List.filter_cons]
    by_cases h1 : s.1 < a
    · rw [if_pos (by simp [h1]), if_neg (by simp [not_le.mpr h1]),
        if_neg (by simp [not_lt.mpr (le_of_lt (lt_of_lt_of_le h1 hab))])]
      conv_lhs => rw [ih hs2]
      simp [List.cons_append]
    · by_cases h2 : s.1 ≤ b
      · rw [if_neg (by simp [h1]), if_pos (by simp [not_lt.mp h1, h2]),
          if_neg (by simp [not_lt.mpr h2])]
        have hT2 : S2.takeWhile (fun s2 => decide (s2.1 < a)) = [] := by
          cases hS2 : S2 with
          | nil => rfl
          | cons s2 S3 =>
            rw [List.takeWhile_cons, if_neg ?_]
            have hgt : a ≤ s.1 := not_lt.mp h1
            have : a < s2.1 := lt_of_le_of_lt hgt (hlt s2 (by rw [hS2]; simp))
            simp [not_lt.mpr (le_of_lt this)]
        have hrest := ih hs2
        rw [hT2, List.nil_append] at hrest
        rw [List.nil_append, List.cons_append, ← hrest]
      · have h3 : b < s.1 := not_le.mp h2
        rw [if_neg (by simp [h1]), if_neg (by simp [h2]), if_pos (by simp [h3])]
        have hmid : S2.filter (fun s2 => decide (a ≤ s2.1) && decide (s2.1 ≤ b)) = [] :=
          List.filter_eq_nil_iff.mpr fun s2 hs2m => by
            simp [not_le.mpr (lt_trans h3 (hlt s2 hs2m))]
        have hgt : S2.filter (fun s2 => decide (b < s2.1)) = S2 :=
          List.filter_eq_self.mpr fun s2 hs2m => by simp [lt_trans h3 (hlt s2 hs2m)]
        rw [List.nil_append, hmid, List.nil_append, hgt]

theorem filter_mid_abstract {B A : List Seg} (a b v c : ℚ) (hab : a < b)
    (hBlt : ∀ s ∈ B, s.1 < a) (hAgt : ∀ s ∈ A, b < s.1) :
    (B ++ [(a, v), (b, c)] ++ A).filter (fun s => decide (a ≤ s.1) && decide (s.1 ≤ b))
      = [(a, v), (b, c)] := by
  rw [List.filter_append, List.filter_append]
  have hB : B.filter (fun s => decide (a ≤ s.1) && decide (s.1 ≤ b)) = [] :=
    List.filter_eq_nil_iff.mpr fun s hsm => by simp [not_le.mpr (hBlt s hsm)]
  have hA : A.filter (fun s => decide (a ≤ s.1) && decide (s.1 ≤ b)) = [] :=
    List.filter_eq_nil_iff.mpr fun s hsm => by simp [not_le.mpr (hAgt s hsm)]
  have hM : ([((a : ℚ), v), ((b : ℚ), c)] : List Seg).filter
      (fun s => decide (a ≤ s.1) && decide (s.1 ≤ b)) = [(a, v), (b, c)] := by
    refine List.filter_eq_self.mpr fun s hsm => ?_
    rcases List.mem_cons.mp hsm with rfl | hsm2
    · simp [le_refl a, le_of_lt hab]
    · rcases List.mem_cons.mp hsm2 with rfl | hsm3
      · simp [le_of_lt hab, le_refl b]
      · exact absurd hsm3 (List.not_mem_nil _)
  rw [hB, hA, hM, List.nil_append, List.append_nil]

theorem takeWhile_all {p : Seg → Bool} : ∀ {X : List Seg},
    (∀ s ∈ X, p s = true) → X.takeWhile p = X := by
  intro X
  induction X with
  | nil => intro _; rfl
  | cons s X2 ih =>
    intro h
    rw [List.takeWhile_cons, if_pos (h s (List.mem_cons_self _ _)),
      ih fun s2 hs2 => h s2 (List.mem_cons_of_mem _ hs2)]

theorem takeWhile_nil_of_all {p : Seg → Bool} {X : List Seg}
    (h : ∀ s ∈ X, p s = false) : X.takeWhile p = [] := by
  cases X with
  | nil => rfl
  | cons s X2 =>
    rw [List.takeWhile_cons, if_neg (by simp [h s (List.mem_cons_self _ _)])]

theorem sublist_pair_cases {u w : Seg} {X : List Seg} (h : List.Sublist X [u, w]) :
    X = [] ∨ X = [u] ∨ X = [w] ∨ X = [u, w] := by
  cases h with
  | cons _ h2 =>
    cases h2 with
    | cons _ h3 =>
      left
      exact List.sublist_nil.mp h3
    | cons₂ _ h3 =>
      right; right; left
      rw [List.sublist_nil.mp h3]
  | cons₂ _ h2 =>
    cases h2 with
    | cons _ h3 =>
      right; left
      rw [List.sublist_nil.mp h3]
    | cons₂ _ h3 =>
      right; right; right
      rw [List.sublist_nil.mp h3]

/-- The heart of `set` idempotence: cleaning the re-assembly (around the
same `a`, `b`, `v`, carry `c`) of an already-cleaned assembled list gives
that cleaned list back. -/
theorem cleanup_assemble_idem {B A S1p : List Seg} {a b v c : ℚ} (hab : a < b)
    (hBlt : ∀ s ∈ B, s.1 < a) (hAgt : ∀ s ∈ A, b < s.1)
    (hEsort : (B ++ [(a, v), (b, c)] ++ A).Pairwise (fun x y : Seg => x.1 < y.1))
    (hS1 : cleanup (B ++ [(a, v), (b, c)] ++ A) = S1p)
    (hhead : ∀ s, S1p.head? = some s → s.2 ≠ 0)
    (htrail : ∀ x y rest, S1p.reverse = x :: y :: rest → ¬(x.2 = 0 ∧ y.2 = 0))
    (hcarry : carryAfter S1p b = c) :
    cleanup (assembleSet S1p a b v) = S1p := by
  obtain ⟨U, W, hUW, hU0, hW0, hWlast⟩ := cleanup_decomposition (B ++ [(a, v), (b, c)] ++ A)
  rw [hS1] at hUW hWlast
  have hS1sorted : S1p.Pairwise (fun x y : Seg => x.1 < y.1) := by
    rw [← hS1]
    exact hEsort.sublist (cleanup_sublist _)
  have hsplit : ((U ++ (S1p ++ W)) : List Seg).Pairwise (fun x y : Seg => x.1 < y.1) := by
    have h := hEsort
    rw [hUW, List.append_assoc] at h
    exact h
  have h1 := List.pairwise_append.mp hsplit
  have hcross1 : ∀ u ∈ U, ∀ x ∈ S1p ++ W, u.1 < x.1 := h1.2.2
  have h2 := List.pairwise_append.mp h1.2.1
  have hcross2 : ∀ s ∈ S1p, ∀ w2 ∈ W, s.1 < w2.1 := h2.2.2
  have hS1subE : List.Sublist S1p (B ++ [(a, v), (b, c)] ++ A) := by
    rw [← hS1]
    exact cleanup_sublist _
  have hM1sub : List.Sublist
      (S1p.filter fun s => decide (a ≤ s.1) && decide (s.1 ≤ b)) [(a, v), (b, c)] := by
    have h3 := hS1subE.filter (fun s => decide (a ≤ s.1) && decide (s.1 ≤ b))
    rwa [filter_mid_abstract a b v c hab hBlt hAgt] at h3
  have hpart := sorted_partition a b (le_of_lt hab) S1p hS1sorted
  have hmemE : ∀ (x : Seg), x ∈ B ++ [(a, v), (b, c)] ++ A → x ∈ U ∨ x ∈ S1p ∨ x ∈ W := by
    intro x hx
    rw [hUW] at hx
    rcases List.mem_append.mp hx with h4 | h4
    · rcases List.mem_append.mp h4 with h5 | h5
      exacts [Or.inl h5, Or.inr (Or.inl h5)]
    · exact Or.inr (Or.inr h4)
  have havE : ((a : ℚ), v) ∈ B ++ [(a, v), (b, c)] ++ A := by simp
  have hbcE : ((b : ℚ), c) ∈ B ++ [(a, v), (b, c)] ++ A := by simp
  have hE2 : assembleSet S1p a b v
      = (S1p.takeWhile fun s => decide (s.1 < a)) ++ [(a, v), (b, c)]
        ++ (S1p.filter fun s => decide (b < s.1)) := by
    unfold assembleSet
    rw [hcarry]
  rw [hE2]
  rcases sublist_pair_cases hM1sub with hM | hM | hM | hM
  · -- both inserted segments were cleaned away
    have hav_not : ((a : ℚ), v) ∉ S1p := by
      intro hmem
      have h5 : ((a : ℚ), v) ∈ S1p.filter (fun s => decide (a ≤ s.1) && decide (s.1 ≤ b)) :=
        List.mem_filter.mpr ⟨hmem, by simp [le_refl a, le_of_lt hab]⟩
      rw [hM] at h5
      exact absurd h5 (List.not_mem_nil _)
    have hbc_not : ((b : ℚ), c) ∉ S1p := by
      intro hmem
      have h5 : ((b : ℚ), c) ∈ S1p.filter (fun s => decide (a ≤ s.1) && decide (s.1 ≤ b)) :=
        List.mem_filter.mpr ⟨hmem, by simp [le_of_lt hab, le_refl b]⟩
      rw [hM] at h5
      exact absurd h5 (List.not_mem_nil _)
    rcases hmemE _ havE with hau | has | haw
    · rcases hmemE _ hbcE with hbu | hbs | hbw
      · -- both in the leading zero prefix
        have hv0 : v = 0 := hU0 _ hau
        have hc0 : c = 0 := hU0 _ hbu
        have hgt_all : ∀ s ∈ S1p, b < s.1 := by
          intro s hs
          have h6 := hcross1 _ hbu s (List.mem_append.mpr (Or.inl hs))
          exact h6
        have ha_all : ∀ s ∈ S1p, a < s.1 := by
          intro s hs
          have h6 := hcross1 _ hau s (List.mem_append.mpr (Or.inl hs))
          exact h6
        have hB2 : S1p.takeWhile (fun s => decide (s.1 < a)) = [] :=
          takeWhile_nil_of_all fun s hs => by simp [not_lt.mpr (le_of_lt (ha_all s hs))]
        have hA2 : S1p.filter (fun s => decide (b < s.1)) = S1p :=
          List.filter_eq_self.mpr fun s hs => by simp [hgt_all s hs]
        rw [hB2, hA2, hv0, hc0]
        have hform : (([] : List Seg) ++ [((a : ℚ), (0 : ℚ)), ((b : ℚ), (0 : ℚ))]) ++ S1p
            = [((a : ℚ), (0 : ℚ)), ((b : ℚ), (0 : ℚ))] ++ S1p ++ [] := by
          simp
        rw [hform]
        exact cleanup_sandwich _ _ _
          (by intro s hs; simp only [List.mem_cons, List.not_mem_nil, or_false] at hs
              rcases hs with rfl | rfl <;> rfl)
          (by simp) hhead htrail (fun hc2 => absurd rfl hc2)
      · exact absurd hbs hbc_not
      · -- `(a,v)` leading, `(b,c)` trailing: the whole middle vanished
        have hv0 : v = 0 := hU0 _ hau
        have hc0 : c = 0 := hW0 _ hbw
        have ha_all : ∀ s ∈ S1p, a < s.1 := by
          intro s hs
          exact hcross1 _ hau s (List.mem_append.mpr (Or.inl hs))
        have hb_all : ∀ s ∈ S1p, s.1 < b := by
          intro s hs
          exact hcross2 s hs _ hbw
        have hB2 : S1p.takeWhile (fun s => decide (s.1 < a)) = [] :=
          takeWhile_nil_of_all fun s hs => by simp [not_lt.mpr (le_of_lt (ha_all s hs))]
        have hA2 : S1p.filter (fun s => decide (b < s.1)) = [] :=
          List.filter_eq_nil_iff.mpr fun s hs => by
            simp [not_lt.mpr (le_of_lt (hb_all s hs))]
        have hnil : S1p = [] := by
          rw [hM, hB2, hA2] at hpart
          simpa using hpart
        rw [hB2, hA2, hv0, hc0, hnil]
        have h7 := cleanup_sandwich [((a : ℚ), (0 : ℚ)), ((b : ℚ), (0 : ℚ))] [] []
          (by intro s hs; simp only [List.mem_cons, List.not_mem_nil, or_false] at hs
              rcases hs with rfl | rfl <;> rfl)
          (by simp) (by intro s hs; simp at hs)
          (by intro x y rest hx; simp at hx) (fun hc2 => absurd rfl hc2)
        simpa using h7
    · exact absurd has hav_not
    · rcases hmemE _ hbcE with hbu | hbs | hbw
      · -- impossible ordering: `(b,c)` before `(a,v)`
        have h6 : b < a := hcross1 _ hbu ((a : ℚ), v) (List.mem_append.mpr (Or.inr haw))
        exact absurd h6 (not_lt.mpr (le_of_lt hab))
      · exact absurd hbs hbc_not
      · -- both in the trailing zero suffix
        have hv0 : v = 0 := hW0 _ haw
        have hc0 : c = 0 := hW0 _ hbw
        have hlt_all : ∀ s ∈ S1p, s.1 < a := by
          intro s hs
          exact hcross2 s hs _ haw
        have hB2 : S1p.takeWhile (fun s => decide (s.1 < a)) = S1p :=
          takeWhile_all fun s hs => by simp [hlt_all s hs]
        have hA2 : S1p.filter (fun s => decide (b < s.1)) = [] :=
          List.filter_eq_nil_iff.mpr fun s hs => by
            simp [not_lt.mpr (le_of_lt (lt_trans (hlt_all s hs) hab))]
        rw [hB2, hA2, hv0, hc0, List.append_nil]
        exact cleanup_sandwich [] S1p [((a : ℚ), (0 : ℚ)), ((b : ℚ), (0 : ℚ))]
          (by simp)
          (by intro s hs; simp only [List.mem_cons, List.not_mem_nil, or_false] at hs
              rcases hs with rfl | rfl <;> rfl)
          hhead htrail
          (fun _ _ => hWlast (List.ne_nil_of_mem haw))
  · -- only `(a,v)` survived
    have hav_mem : ((a : ℚ), v) ∈ S1p := by
      have h5 : ((a : ℚ), v) ∈ S1p.filter (fun s => decide (a ≤ s.1) && decide (s.1 ≤ b)) := by
        rw [hM]
        exact List.mem_cons_self _ _
      exact (List.mem_filter.mp h5).1
    have hbc_not : ((b : ℚ), c) ∉ S1p := by
      intro hmem
      have h5 : ((b : ℚ), c) ∈ S1p.filter (fun s => decide (a ≤ s.1) && decide (s.1 ≤ b)) :=
        List.mem_filter.mpr ⟨hmem, by simp [le_of_lt hab, le_refl b]⟩
      rw [hM] at h5
      simp only [List.mem_singleton, Prod.mk.injEq] at h5
      exact absurd h5.1 (ne_of_gt hab)
    rcases hmemE _ hbcE with hbu | hbs | hbw
    · have h6 : b < a := hcross1 _ hbu ((a : ℚ), v) (List.mem_append.mpr (Or.inl hav_mem))
      exact absurd h6 (not_lt.mpr (le_of_lt hab))
    · exact absurd hbs hbc_not
    · have hc0 : c = 0 := hW0 _ hbw
      have hW_ne : W ≠ [] := List.ne_nil_of_mem hbw
      have hA2 : S1p.filter (fun s => decide (b < s.1)) = [] :=
        List.filter_eq_nil_iff.mpr fun s hs => by
          simp [not_lt.mpr (le_of_lt (hcross2 s hs _ hbw))]
      rw [hM, hA2, List.append_nil] at hpart
      rw [hA2, hc0, List.append_nil]
      have hform : (S1p.takeWhile fun s => decide (s.1 < a)) ++ [((a : ℚ), v), ((b : ℚ), (0 : ℚ))]
          = ([] : List Seg) ++ S1p ++ [((b : ℚ), (0 : ℚ))] := by
        rw [List.nil_append]
        conv_rhs => rw [hpart]
        simp
      rw [hform]
      exact cleanup_sandwich [] S1p [((b : ℚ), (0 : ℚ))]
        (by simp)
        (by intro s hs; simp only [List.mem_singleton] at hs; rw [hs])
        hhead htrail
        (fun _ _ => hWlast hW_ne)
  · -- only `(b,c)` survived
    have hbc_mem : ((b : ℚ), c) ∈ S1p := by
      have h5 : ((b : ℚ), c) ∈ S1p.filter (fun s => decide (a ≤ s.1) && decide (s.1 ≤ b)) := by
        rw [hM]
        exact List.mem_cons_self _ _
      exact (List.mem_filter.mp h5).1
    have hav_not : ((a : ℚ), v) ∉ S1p := by
      intro hmem
      have h5 : ((a : ℚ), v) ∈ S1p.filter (fun s => decide (a ≤ s.1) && decide (s.1 ≤ b)) :=
        List.mem_filter.mpr ⟨hmem, by simp [le_refl a, le_of_lt hab]⟩
      rw [hM] at h5
      simp only [List.mem_singleton, Prod.mk.injEq] at h5
      exact absurd h5.1 (ne_of_lt hab)
    rcases hmemE _ havE with hau | has | haw
    · have hv0 : v = 0 := hU0 _ hau
      have ha_all : ∀ s ∈ S1p, a < s.1 := by
        intro s hs
        exact hcross1 _ hau s (List.mem_append.mpr (Or.inl hs))
      have hB2 : S1p.takeWhile (fun s => decide (s.1 < a)) = [] :=
        takeWhile_nil_of_all fun s hs => by simp [not_lt.mpr (le_of_lt (ha_all s hs))]
      rw [hM, hB2, List.nil_append] at hpart
      rw [hB2, hv0]
      have hform : (([] : List Seg) ++ [((a : ℚ), (0 : ℚ)), ((b : ℚ), c)])
            ++ (S1p.filter fun s => decide (b < s.1))
          = [((a : ℚ), (0 : ℚ))] ++ S1p ++ [] := by
        rw [List.append_nil, List.nil_append, hpart]
        simp
      rw [hform]
      exact cleanup_sandwich [((a : ℚ), (0 : ℚ))] S1p []
        (by intro s hs; simp only [List.mem_singleton] at hs; rw [hs])
        (by simp) hhead htrail (fun hc2 => absurd rfl hc2)
    · exact absurd has hav_not
    · have h6 : b < a := hcross2 _ hbc_mem ((a : ℚ), v) haw
      exact absurd h6 (not_lt.mpr (le_of_lt hab))
  · -- both survived: the assembly is already the cleaned list
    rw [hM] at hpart
    rw [← hpart]
    exact cleanup_fix S1p hhead htrail

/-! ## Binary search correctness -/

theorem mem_imp_getD {S : List Seg} {s : Seg} (hs : s ∈ S) :
    ∃ j : ℕ, j < S.length ∧ S.getD j (0, 0) = s := by
  obtain ⟨⟨j, hj⟩, rfl⟩ := List.mem_iff_get.mp hs
  exact ⟨j, hj, by rw [List.getD_eq_getElem _ _ hj, List.get_eq_getElem]⟩

theorem sorted_getD_lt {S : List Seg}
    (hsort : S.Pairwise (fun a b : Seg => a.1 < b.1)) {i j : ℕ}
    (hij : i < j) (hj : j < S.length) :
    (S.getD i (0, 0)).1 < (S.getD j (0, 0)).1 := by
  have hi : i < S.length := lt_trans hij hj
  rw [List.getD_eq_getElem _ _ hi, List.getD_eq_getElem _ _ hj]
  have h := List.pairwise_iff_get.mp hsort ⟨i, hi⟩ ⟨j, hj⟩ hij
  simpa [List.get_eq_getElem] using h

theorem valueFrom_getD_last (t : ℚ) : ∀ (L : List Seg),
    L.Pairwise (fun a b : Seg => a.1 < b.1) →
    ∀ (k : ℕ), k < L.length → (L.getD k (0, 0)).1 ≤ t →
    (∀ j : ℕ, k < j → j < L.length → t < (L.getD j (0, 0)).1) →
    valueFrom 0 L t = (L.getD k (0, 0)).2 := by
  intro L
  induction L with
  | nil =>
    intro _ k hk
    exact absurd hk (by simp)
  | cons a L2 ih =>
    intro hsort k hk hle hgt
    obtain ⟨p, v⟩ := a
    obtain ⟨hlt, hs2⟩ := List.pairwise_cons.mp hsort
    cases k with
    | zero =>
      rw [List.getD_cons_zero] at hle ⊢
      show valueFrom (if p ≤ t then v else 0) L2 t = v
      rw [if_pos hle]
      apply valueFrom_of_all_gt
      intro s hs
      obtain ⟨j, hj, hjs⟩ := mem_imp_getD hs
      have h2 := hgt (j + 1) (by omega) (by simp only [List.length_cons]; omega)
      rw [List.getD_cons_succ, hjs] at h2
      exact h2
    | succ k2 =>
      have hk2 : k2 < L2.length := by simpa using hk
      rw [List.getD_cons_succ] at hle ⊢
      have hmem : L2.getD k2 (0, 0) ∈ L2 := by
        rw [List.getD_eq_getElem _ _ hk2]
        exact List.getElem_mem hk2
      have hp : p ≤ t := le_trans (le_of_lt (hlt _ hmem)) hle
      show valueFrom (if p ≤ t then v else 0) L2 t = (L2.getD k2 (0, 0)).2
      rw [if_pos hp, valueFrom_congr_default ⟨L2.getD k2 (0, 0), hmem, hle⟩ v]
      refine ih hs2 k2 hk2 hle fun j hj hjlen => ?_
      have h2 := hgt (j + 1) (by omega) (by simp only [List.length_cons]; omega)
      rwa [List.getD_cons_succ] at h2

theorem bsearch_exit {S : List Seg}
    (hsort : S.Pairwise (fun a b : Seg => a.1 < b.1)) (t : ℚ)
    (left : ℕ) (right : ℤ) (hnl : ¬ (left : ℤ) ≤ right) (hlen : right < S.length)
    (hl : ∀ i : ℕ, (i : ℤ) < left → i < S.length → (S.getD i (0, 0)).1 < t)
    (hr : ∀ i : ℕ, right < (i : ℤ) → i < S.length → t < (S.getD i (0, 0)).1) :
    (if 0 ≤ right then (S.getD right.toNat (0, 0)).2 else 0) = valueFrom 0 S t := by
  by_cases h0 : 0 ≤ right
  · rw [if_pos h0]
    have hk : right.toNat < S.length := by omega
    refine (valueFrom_getD_last t S hsort right.toNat hk ?_ ?_).symm
    · exact le_of_lt (hl right.toNat (by omega) hk)
    · intro j hj hjlen
      exact hr j (by omega) hjlen
  · rw [if_neg h0]
    refine (valueFrom_of_all_gt ?_ 0).symm
    intro s hs
    obtain ⟨j, hj, hjs⟩ := mem_imp_getD hs
    have h2 := hr j (by omega) hj
    rwa [hjs] at h2

theorem bsearchGo_correct {S : List Seg}
    (hsort : S.Pairwise (fun a b : Seg => a.1 < b.1)) (t : ℚ) :
    ∀ (N : ℕ) (left : ℕ) (right : ℤ), (right + 1 - left).toNat ≤ N →
    right < S.length →
    (∀ i : ℕ, (i : ℤ) < left → i < S.length → (S.getD i (0, 0)).1 < t) →
    (∀ i : ℕ, right < (i : ℤ) → i < S.length → t < (S.getD i (0, 0)).1) →
    bsearchGo S t left right = valueFrom 0 S t := by
  intro N
  induction N with
  | zero =>
    intro left right hN hlen hl hr
    have hnl : ¬ (left : ℤ) ≤ right := by omega
    unfold bsearchGo
    rw [dif_neg hnl]
    exact bsearch_exit hsort t left right hnl hlen hl hr
  | succ N ih =>
    intro left right hN hlen hl hr
    by_cases hle : (left : ℤ) ≤ right
    · unfold bsearchGo
      rw [dif_pos hle]
      have hmidl : (left : ℤ) ≤ (((left : ℤ) + right).toNat / 2 : ℕ) := by omega
      have hmidr : ((((left : ℤ) + right).toNat / 2 : ℕ) : ℤ) ≤ right := by omega
      have hmidlen : ((left : ℤ) + right).toNat / 2 < S.length := by omega
      by_cases heq : (S.getD (((left : ℤ) + right).toNat / 2) (0, 0)).1 = t
      · simp only [heq, if_pos]
        refine (valueFrom_getD_last t S hsort _ hmidlen (le_of_eq heq) ?_).symm
        intro j hj hjlen
        rw [← heq]
        exact sorted_getD_lt hsort hj hjlen
      · rw [if_neg heq]
        by_cases hlt2 : (S.getD (((left : ℤ) + right).toNat / 2) (0, 0)).1 < t
        · rw [if_pos hlt2]
          refine ih _ right (by omega) hlen ?_ hr
          intro i hi hilen
          have hi2 : i ≤ ((left : ℤ) + right).toNat / 2 := by omega
          rcases lt_or_eq_of_le hi2 with h2 | h2
          · exact lt_trans (sorted_getD_lt hsort h2 hmidlen) hlt2
          · rw [h2]
            exact hlt2
        · rw [if_neg hlt2]
          have hgt2 : t < (S.getD (((left : ℤ) + right).toNat / 2) (0, 0)).1 :=
            lt_of_le_of_ne (not_lt.mp hlt2) fun hc => heq hc.symm
          refine ih left _ (by omega) (by omega) hl ?_
          intro i hi hilen
          have hi2 : ((left : ℤ) + right).toNat / 2 ≤ i := by omega
          rcases lt_or_eq_of_le hi2 with h2 | h2
          · exact lt_trans hgt2 (sorted_getD_lt hsort h2 hilen)
          · rw [← h2]
            exact hgt2
    · unfold bsearchGo
      rw [dif_neg hle]
      exact bsearch_exit hsort t left right hle hlen hl hr

theorem getIntensityAt_eq_valueFrom {S : List Seg}
    (hsort : S.Pairwise (fun a b : Seg => a.1 < b.1)) (t : ℚ) :
    getIntensityAt S t = valueFrom 0 S t := by
  unfold getIntensityAt
  by_cases h0 : S.length = 0
  · rw [if_pos h0]
    rw [List.length_eq_zero.mp h0]
    rfl
  · rw [if_neg h0]
    refine bsearchGo_correct hsort t ((S.length : ℤ) - 1 + 1 - 0).toNat 0 _ (le_refl _)
      (by omega) (fun i hi _ => absurd hi (by omega)) (fun i hi hilen => ?_)
    exact absurd hilen (by omega)

end IntensitySegments

open IntensitySegments

/-- C1: the three chained `add` scenarios and their exact `toString()`
outputs, starting from the freshly constructed empty store. -/
theorem C1_add_scenarios :
    serialize (add [] 10 30 1) = "[[10,1],[30,0]]" ∧
    serialize (add (add [] 10 30 1) 20 40 1) = "[[10,1],[20,2],[30,1],[40,0]]" ∧
    serialize (add (add (add [] 10 30 1) 20 40 1) 10 40 (-2)) =
      "[[10,-1],[20,0],[30,-1],[40,0]]" := by
  refine ⟨by decide, by decide, by decide⟩

/-- C2 counterexample: the reachable store obtained by `add(0,10,1)` then
`add(10,20,1)` contains two consecutive segments that both carry value 1
(they are not merged), refuting the no-adjacent-duplicate invariant. -/
theorem C2_cex_adjacent_duplicates :
    Reachable [((0 : ℚ), (1 : ℚ)), ((10 : ℚ), (1 : ℚ)), ((20 : ℚ), (0 : ℚ))] ∧
    (([((0 : ℚ), (1 : ℚ)), ((10 : ℚ), (1 : ℚ)), ((20 : ℚ), (0 : ℚ))] : List Seg).getD 0 (0, 0)).2
      = (([((0 : ℚ), (1 : ℚ)), ((10 : ℚ), (1 : ℚ)), ((20 : ℚ), (0 : ℚ))] : List Seg).getD 1
          (0, 0)).2 := by
  constructor
  · have h : [((0 : ℚ), (1 : ℚ)), ((10 : ℚ), (1 : ℚ)), ((20 : ℚ), (0 : ℚ))] =
        add (add [] 0 10 1) 10 20 1 := by decide
    rw [h]
    exact Reachable.add _ _ _ (Reachable.add _ _ _ Reachable.empty (by norm_num)) (by norm_num)
  · rfl

/-- C3 counterexample: on the reachable store `add(0,20,1) = [[0,1],[20,0]]`,
`add(5,10,2)` followed by `add(5,10,-2)` does not restore the previous
canonical segment list (it leaves `[[0,1],[5,1],[10,1],[20,0]]`), and the
`toString()` outputs differ as well. -/
theorem C3_cex_round_trip :
    Reachable (add ([] : List Seg) 0 20 1) ∧ (5 : ℚ) < 10 ∧
    add (add (add [] 0 20 1) 5 10 2) 5 10 (-2) ≠ add ([] : List Seg) 0 20 1 ∧
    serialize (add (add (add [] 0 20 1) 5 10 2) 5 10 (-2)) ≠
      serialize (add ([] : List Seg) 0 20 1) := by
  exact ⟨Reachable.add _ _ _ Reachable.empty (by norm_num), by norm_num, by decide, by decide⟩

/-- C5: `set` ends the overridden range with a segment at `to` carrying the
carry-over value — the value of the last pre-existing segment whose point is
`≤ to`, or 0 if none — and the concrete scenario `add(10,40,1)`;
`set(20,30,3)` produces exactly `[[10,1],[20,3],[30,1],[40,0]]`. -/
theorem C5_set_carry_over :
    (∀ (S : List Seg) (b : ℚ), carryAfter S b = lastLeVal S b) ∧
    (∀ (S : List Seg) (a b x : ℚ), (b, carryAfter S b) ∈ assembleSet S a b x) ∧
    serialize (set (add [] 10 40 1) 20 30 3) = "[[10,1],[20,3],[30,1],[40,0]]" := by
  refine ⟨carryAfter_eq_lastLeVal, ?_, by decide⟩
  intro S a b x
  unfold assembleSet
  simp

/-- C6: `add` and `set` reject exactly the argument triples that are not
finite with `from < to`, raising a range error and leaving the store
untouched (validation precedes any mutation); in particular `add(30,30,1)`
and `add(10,30,Infinity)` fail that way on every store. -/
theorem C6_validation_rejects_unchanged :
    (∀ (S : List Seg) (f t a : JsNum),
      (¬ ∃ qf qt qa : ℚ, f = .fin qf ∧ t = .fin qt ∧ a = .fin qa ∧ qf < qt) →
      addJs S f t a = (S, some JsErr.rangeError) ∧
      setJs S f t a = (S, some JsErr.rangeError)) ∧
    (∀ S : List Seg, addJs S (.fin 30) (.fin 30) (.fin 1) = (S, some JsErr.rangeError)) ∧
    (∀ S : List Seg, addJs S (.fin 10) (.fin 30) .posInf = (S, some JsErr.rangeError)) := by
  refine ⟨?_, ?_, ?_⟩
  · intro S f t a h
    push_neg at h
    cases f with
    | fin qf =>
      cases t with
      | fin qt =>
        cases a with
        | fin qa =>
          have hge : qt ≤ qf := h qf qt qa rfl rfl rfl
          simp [addJs, setJs, validateTimeRange, validateIntensity, hge]
        | posInf =>
          rcases le_or_lt qt qf with h2 | h2
          · simp [addJs, setJs, validateTimeRange, validateIntensity, h2]
          · simp [addJs, setJs, validateTimeRange, validateIntensity, not_le.mpr h2]
        | negInf =>
          rcases le_or_lt qt qf with h2 | h2
          · simp [addJs, setJs, validateTimeRange, validateIntensity, h2]
          · simp [addJs, setJs, validateTimeRange, validateIntensity, not_le.mpr h2]
        | nan =>
          rcases le_or_lt qt qf with h2 | h2
          · simp [addJs, setJs, validateTimeRange, validateIntensity, h2]
          · simp [addJs, setJs, validateTimeRange, validateIntensity, not_le.mpr h2]
      | posInf => simp [addJs, setJs, validateTimeRange]
      | negInf => simp [addJs, setJs, validateTimeRange]
      | nan => simp [addJs, setJs, validateTimeRange]
    | posInf => simp [addJs, setJs, validateTimeRange]
    | negInf => simp [addJs, setJs, validateTimeRange]
    | nan => simp [addJs, setJs, validateTimeRange]
  · intro S; simp [addJs, validateTimeRange]
  · intro S; norm_num [addJs, validateTimeRange, validateIntensity]

/-- C6 witness: the general rejection theorem applied at the concrete
invalid call `add(3,3,5)` / `set(3,3,5)` on the empty store. -/
theorem C6_validation_witness :
    addJs [] (.fin 3) (.fin 3) (.fin 5) = ([], some JsErr.rangeError) ∧
    setJs [] (.fin 3) (.fin 3) (.fin 5) = ([], some JsErr.rangeError) :=
  C6_validation_rejects_unchanged.1 [] (.fin 3) (.fin 3) (.fin 5) (by
    rintro ⟨qf, qt, qa, hf, ht, ha, hlt⟩
    cases hf; cases ht
    exact absurd hlt (by norm_num))

/-- C9: on every finite time the point query returns a value and never
throws; it fails (with the guard's error) exactly when the time argument is
non-finite. -/
theorem C9_query_totality :
    (∀ (S : List Seg) (q : ℚ), getIntensityAtJs S (.fin q) = .ok (getIntensityAt S q)) ∧
    (∀ (S : List Seg) (t : JsNum),
      (∃ e, getIntensityAtJs S t = .error e) ↔ t.isFinite = false) := by
  constructor
  · intro S q; rfl
  · intro S t
    cases t <;> simp [getIntensityAtJs, JsNum.isFinite]

/-- C4: on every reachable store and finite time, `getIntensityAt` returns
the value of the last segment whose point is `≤ t` (0 when `t` precedes all
segments or the store is empty), and at a stored breakpoint it returns
exactly that segment's recorded value. -/
theorem C4_point_query (S : List Seg) (h : Reachable S) :
    (∀ t, getIntensityAt S t = lastLeVal S t) ∧
    (∀ t, (∀ s ∈ S, t < s.1) → getIntensityAt S t = 0) ∧
    (∀ t : ℚ, getIntensityAt ([] : List Seg) t = 0) ∧
    (∀ s ∈ S, getIntensityAt S s.1 = s.2) := by
  have hsort := reachable_sorted h
  refine ⟨?_, ?_, fun t => rfl, ?_⟩
  · intro t
    rw [getIntensityAt_eq_valueFrom hsort, valueFrom_eq_lastLeVal]
  · intro t hgt
    rw [getIntensityAt_eq_valueFrom hsort]
    exact valueFrom_of_all_gt hgt 0
  · intro s hsmem
    rw [getIntensityAt_eq_valueFrom hsort]
    exact valueFrom_breakpoint hsort s hsmem

/-- C4 witness: the query spec instantiated on the reachable store
`add(10,30,1)` at time 20. -/
theorem C4_point_query_witness :
    getIntensityAt (add [] 10 30 1) 20 = lastLeVal (add [] 10 30 1) 20 :=
  (C4_point_query _ (Reachable.add 10 30 1 Reachable.empty (by norm_num))).1 20

/-- C3 amended: `add(a,b,x)` then `add(a,b,-x)` restores the represented
intensity function — `getIntensityAt` agrees with the original store at
every finite time — but not necessarily the identical canonical segment
list (see the counterexample, where spurious breakpoints with duplicated
values remain). -/
theorem C3_amended_round_trip_pointwise (S : List Seg) (h : Reachable S) (a b x : ℚ)
    (hab : a < b) :
    ∀ t, getIntensityAt (add (add S a b x) a b (-x)) t = getIntensityAt S t := by
  have hs := reachable_sorted h
  have hs1 : (add S a b x).Pairwise (fun s t : Seg => s.1 < t.1) := applyChanges_sorted _
  have hs2 : (add (add S a b x) a b (-x)).Pairwise (fun s t : Seg => s.1 < t.1) :=
    applyChanges_sorted _
  intro t
  rw [getIntensityAt_eq_valueFrom hs2 t, getIntensityAt_eq_valueFrom hs t,
    valueFrom_add hs1 a b (-x) t, valueFrom_add hs a b x t]
  by_cases h1 : a ≤ t <;> by_cases h2 : b ≤ t <;> simp [h1, h2]

/-- C3 amended witness: the pointwise round trip instantiated on the
reachable store `add(0,20,1)` with `add(5,10,2)`, `add(5,10,-2)`, at
time 7. -/
theorem C3_amended_witness :
    getIntensityAt (add (add (add [] 0 20 1) 5 10 2) 5 10 (-2)) 7
      = getIntensityAt (add [] 0 20 1) 7 :=
  C3_amended_round_trip_pointwise _ (Reachable.add 0 20 1 Reachable.empty (by norm_num))
    5 10 2 (by norm_num) 7

/-- C7: every reachable store has strictly increasing points, a non-zero
first value (no leading zero segment), and never two trailing zero-valued
segments (at most one trailing zero segment). -/
theorem C7_store_invariants (S : List Seg) (h : Reachable S) :
    S.Pairwise (fun s t : Seg => s.1 < t.1) ∧
    (∀ s, S.head? = some s → s.2 ≠ 0) ∧
    (∀ x y rest, S.reverse = x :: y :: rest → ¬(x.2 = 0 ∧ y.2 = 0)) := by
  induction h with
  | empty =>
    refine ⟨List.Pairwise.nil, by simp, ?_⟩
    intro x y rest hx
    exact absurd hx (by simp)
  | add a b x hS hab ih =>
    exact ⟨applyChanges_sorted _, applyChanges_head_ne_zero _,
      applyChanges_no_two_trailing_zeros _⟩
  | set a b x hS hab ih =>
    exact ⟨applyChanges_sorted _, applyChanges_head_ne_zero _,
      applyChanges_no_two_trailing_zeros _⟩

/-- C7 witness: the invariants instantiated on the reachable store
`add(10,30,1)`. -/
theorem C7_store_invariants_witness :
    (add [] 10 30 1).Pairwise (fun s t : Seg => s.1 < t.1) ∧
    (∀ s, (add [] 10 30 1).head? = some s → s.2 ≠ 0) ∧
    (∀ x y rest, (add [] 10 30 1).reverse = x :: y :: rest → ¬(x.2 = 0 ∧ y.2 = 0)) :=
  C7_store_invariants _ (Reachable.add 10 30 1 Reachable.empty (by norm_num))

/-- C2 amended: the normalizer does not merge adjacent equal-valued
segments in general (see the counterexample); the deduplication that does
hold on every reachable store is the trailing one — the store never ends
with two consecutive zero-valued segments. -/
theorem C2_amended_no_trailing_zero_pair (S : List Seg) (h : Reachable S) :
    ∀ (pre : List Seg) (p q : ℚ), S ≠ pre ++ [(p, 0), (q, 0)] := by
  induction h with
  | empty =>
    intro pre p q hc
    exact absurd hc.symm (by simp)
  | add a b x hS hab ih => intro pre p q; exact applyChanges_ne_trailing_pair _ pre p q
  | set a b x hS hab ih => intro pre p q; exact applyChanges_ne_trailing_pair _ pre p q

/-- C2 amended witness: instantiated on the reachable store `add(10,30,1)`. -/
theorem C2_amended_witness :
    add [] 10 30 1 ≠ [((5 : ℚ), (0 : ℚ)), ((6 : ℚ), (0 : ℚ))] :=
  C2_amended_no_trailing_zero_pair _ (Reachable.add 10 30 1 Reachable.empty (by norm_num)) [] 5 6

/-- C10 (implicit): every reachable store is empty or ends with a segment
whose value is exactly 0 — the represented function always reverts to 0
after the last breakpoint. -/
theorem C10_last_value_zero (S : List Seg) (h : Reachable S) :
    S = [] ∨ ∃ s, S.getLast? = some s ∧ s.2 = 0 :=
  reachable_last_zero h

/-- C10 witness: instantiated on the reachable store `add(10,30,1)`. -/
theorem C10_last_value_zero_witness :
    add [] 10 30 1 = [] ∨ ∃ s, (add [] 10 30 1).getLast? = some s ∧ s.2 = 0 :=
  C10_last_value_zero _ (Reachable.add 10 30 1 Reachable.empty (by norm_num))

/-- C8: on every reachable store and for all valid arguments `a < b` with a
finite amount `v`, calling `set(a,b,v)` twice in succession yields exactly
the same store as calling it once: `set` is idempotent. -/
theorem C8_set_idempotent (S : List Seg) (h : Reachable S) (a b v : ℚ) (hab : a < b) :
    set (set S a b v) a b v = set S a b v := by
  have hsort := reachable_sorted h
  have hlast := lastZero_forall (reachable_last_zero h)
  have hset1 : set S a b v = cleanup (assembleSet S a b v) := set_eq_cleanup hsort hlast hab v
  have hS1reach : Reachable (set S a b v) := Reachable.set a b v h hab
  have hS1sorted := reachable_sorted hS1reach
  have hS1last := lastZero_forall (reachable_last_zero hS1reach)
  have hhead : ∀ s, (set S a b v).head? = some s → s.2 ≠ 0 :=
    applyChanges_head_ne_zero _
  have htrail : ∀ x y rest, (set S a b v).reverse = x :: y :: rest → ¬(x.2 = 0 ∧ y.2 = 0) :=
    applyChanges_no_two_trailing_zeros _
  have hcarry : carryAfter (set S a b v) b = carryAfter S b := by
    rw [hset1]
    exact carryAfter_cleanup_assembleSet hsort hab v
  have hAS : assembleSet S a b v
      = (S.takeWhile fun s => decide (s.1 < a)) ++ [(a, v), (b, carryAfter S b)]
        ++ (S.filter fun s => decide (b < s.1)) := rfl
  have hEsort : ((S.takeWhile fun s => decide (s.1 < a)) ++ [(a, v), (b, carryAfter S b)]
      ++ (S.filter fun s => decide (b < s.1))).Pairwise (fun x y : Seg => x.1 < y.1) := by
    rw [← hAS]
    exact assembleSet_sorted hsort hab v
  have hS1 : cleanup ((S.takeWhile fun s => decide (s.1 < a)) ++ [(a, v), (b, carryAfter S b)]
      ++ (S.filter fun s => decide (b < s.1))) = set S a b v := by
    rw [← hAS]
    exact hset1.symm
  have hBlt : ∀ s ∈ S.takeWhile (fun s => decide (s.1 < a)), s.1 < a := by
    intro s hs
    have h2 := List.mem_takeWhile_imp hs
    simp only [decide_eq_true_eq] at h2
    exact h2
  have hAgt : ∀ s ∈ S.filter (fun s => decide (b < s.1)), b < s.1 := by
    intro s hs
    exact of_decide_eq_true (List.mem_filter.mp hs).2
  rw [set_eq_cleanup hS1sorted hS1last hab v]
  exact cleanup_assemble_idem hab hBlt hAgt hEsort hS1 hhead htrail hcarry

/-- C8 witness: idempotence instantiated on the reachable store
`add(10,40,1)` with `set(20,30,3)` applied twice. -/
theorem C8_set_idempotent_witness :
    set (set (add [] 10 40 1) 20 30 3) 20 30 3 = set (add [] 10 40 1) 20 30 3 :=
  C8_set_idempotent (add [] 10 40 1)
    (Reachable.add 10 40 1 Reachable.empty (by norm_num)) 20 30 3 (by norm_num)
